import Mathlib

/-!
# EntropySeed — verification of the seed-derived AEAD core

Shallow embedding of the repository's two scripts:

* `src/ABB.py` — coordinate-seeded AES-256-GCM encryption
  (`coords_to_bytes`, `sha256`, `derive_keys`, `encrypt_with_coords`,
  `decrypt_with_coords`);
* `src/GVEMPlus/ABB.py` — measurement-pool variant (entropy-pool assembly
  inside `take_screenshot_and_process`, `encrypt_phrase`, `decrypt_ciphertext`).

Byte strings are modelled as `List Nat` with every element below 256 (as
produced by all constructors here).  The external `cryptography` library
primitives that the scripts call (SHA-256, HKDF-SHA256, AES-256-GCM) are
implemented in full from their public standards (FIPS 180-4, RFC 5869,
FIPS 197, NIST SP 800-38D) so that every claim is settled against real,
executable cipher behaviour; test-vector theorems below check the
implementations against the published NIST/RFC vectors.

Idealizations (noted where used): Python `float`s are modelled as exact
rationals extended with non-finite values (`PyFloat`); the `cryptography`
library's 2^31-byte message-size cap and machine memory limits are ignored,
as is NumPy's endianness dependence (little-endian hosts are assumed, as on
the development machine).
-/

set_option maxRecDepth 1000000

namespace EntropySeed

/-! ## 32-bit word helpers (SHA-256, FIPS 180-4) -/

/-- Truncation to a 32-bit word. -/
def u32 (n : Nat) : Nat := n % 4294967296

/-- Right rotation of a 32-bit word by `k`. -/
def rotate32 (k x : Nat) : Nat := u32 ((x >>> k) ||| (x <<< (32 - k)))

def bigSigma0 (x : Nat) : Nat := (rotate32 2 x) ^^^ (rotate32 13 x) ^^^ (rotate32 22 x)

def bigSigma1 (x : Nat) : Nat := (rotate32 6 x) ^^^ (rotate32 11 x) ^^^ (rotate32 25 x)

def smallSigma0 (x : Nat) : Nat := (rotate32 7 x) ^^^ (rotate32 18 x) ^^^ (x >>> 3)

def smallSigma1 (x : Nat) : Nat := (rotate32 17 x) ^^^ (rotate32 19 x) ^^^ (x >>> 10)

/-- `Ch(x,y,z)`; the complement is taken inside 32 bits. -/
def chF (x y z : Nat) : Nat := (x &&& y) ^^^ ((x ^^^ 4294967295) &&& z)

def majF (x y z : Nat) : Nat := (x &&& y) ^^^ (x &&& z) ^^^ (y &&& z)

/-- Big-endian bytes (length `k`) of `n % 256^k`. -/
def natToBytesBE : Nat → Nat → List Nat
  | 0, _ => []
  | k + 1, n => natToBytesBE k (n / 256) ++ [n % 256]

/-- Little-endian bytes (length `k`) of `n % 256^k`. -/
def natToBytesLE : Nat → Nat → List Nat
  | 0, _ => []
  | k + 1, n => n % 256 :: natToBytesLE k (n / 256)

/-- Interpret a byte list as a big-endian natural number. -/
def bytesToNatBE (l : List Nat) : Nat := l.foldl (fun acc b => acc * 256 + b) 0

/-- Group a byte list into big-endian 32-bit words (length a multiple of 4). -/
def bytesToWords : List Nat → List Nat
  | a :: b :: c :: d :: rest => (((a * 256 + b) * 256 + c) * 256 + d) :: bytesToWords rest
  | _ => []

def wordToBytes (w : Nat) : List Nat :=
  [(w >>> 24) &&& 255, (w >>> 16) &&& 255, (w >>> 8) &&& 255, w &&& 255]

/-! ## SHA-256 -/

/-- The 64 SHA-256 round constants, packed big-endian into one natural
number (word `t` sits in bits `[32*(63-t), 32*(64-t))`). -/
def sha256KPacked : Nat :=
  0x428a2f9871374491b5c0fbcfe9b5dba53956c25b59f111f1923f82a4ab1c5ed5d807aa9812835b01243185be550c7dc372be5d7480deb1fe9bdc06a7c19bf174e49b69c1efbe47860fc19dc6240ca1cc2de92c6f4a7484aa5cb0a9dc76f988da983e5152a831c66db00327c8bf597fc7c6e00bf3d5a7914706ca63511429296727b70a852e1b21384d2c6dfc53380d13650a7354766a0abb81c2c92e92722c85a2bfe8a1a81a664bc24b8b70c76c51a3d192e819d6990624f40e3585106aa07019a4c1161e376c082748774c34b0bcb5391c0cb34ed8aa4a5b9cca4f682e6ff3748f82ee78a5636f84c878148cc7020890befffaa4506cebbef9a3f7c67178f2

/-- The 64 SHA-256 round constants as a word list. -/
def sha256K : List Nat :=
  (List.range 64).map fun t => (sha256KPacked >>> (32 * (63 - t))) % 4294967296

/-- SHA-256 padding: append `0x80`, zero fill, and the 64-bit bit length. -/
def sha256Pad (msg : List Nat) : List Nat :=
  msg ++ 128 :: List.replicate ((119 - msg.length % 64) % 64) 0
      ++ natToBytesBE 8 (msg.length * 8)

/-- Message-schedule extension: emit `fuel` further words from a window of
the previous 16. -/
def schedExt : Nat → List Nat → List Nat
  | 0, _ => []
  | f + 1, window =>
    let nw := u32 (smallSigma1 (window.getD 14 0) + window.getD 9 0
                    + smallSigma0 (window.getD 1 0) + window.getD 0 0)
    nw :: schedExt f (window.drop 1 ++ [nw])

abbrev Sha256St := Nat × Nat × Nat × Nat × Nat × Nat × Nat × Nat

/-- The packed initial hash value `H(0)` of FIPS 180-4. -/
def sha256InitPacked : Nat := 0x6a09e667bb67ae853c6ef372a54ff53a510e527f9b05688c1f83d9ab5be0cd19

def sha256Init : Sha256St :=
  ((sha256InitPacked >>> 224) % 4294967296, (sha256InitPacked >>> 192) % 4294967296,
   (sha256InitPacked >>> 160) % 4294967296, (sha256InitPacked >>> 128) % 4294967296,
   (sha256InitPacked >>> 96) % 4294967296, (sha256InitPacked >>> 64) % 4294967296,
   (sha256InitPacked >>> 32) % 4294967296, sha256InitPacked % 4294967296)

def sha256Round (st : Sha256St) (kw : Nat × Nat) : Sha256St :=
  match st, kw with
  | (a, b, c, d, e, f, g, h), (kc, w) =>
    let t1 := u32 (h + bigSigma1 e + chF e f g + kc + w)
    let t2 := u32 (bigSigma0 a + majF a b c)
    (u32 (t1 + t2), a, b, c, u32 (d + t1), e, f, g)

def sha256Compress (st : Sha256St) (block : List Nat) : Sha256St :=
  let ws := block ++ schedExt 48 block
  match st, (List.zip sha256K ws).foldl sha256Round st with
  | (a, b, c, d, e, f, g, h), (a', b', c', d', e', f', g', h') =>
    (u32 (a + a'), u32 (b + b'), u32 (c + c'), u32 (d + d'),
     u32 (e + e'), u32 (f + f'), u32 (g + g'), u32 (h + h'))

/-- Split a word list into 16-word blocks (`fuel` bounds the recursion). -/
def chunk16 : Nat → List Nat → List (List Nat)
  | 0, _ => []
  | _, [] => []
  | fuel + 1, ws => ws.take 16 :: chunk16 fuel (ws.drop 16)

/-- SHA-256 of a byte string, as a 32-byte digest.  Models the helper
`sha256` of `src/ABB.py` (`hashlib.sha256(data).digest()`). -/
def sha256 (data : List Nat) : List Nat :=
  let ws := bytesToWords (sha256Pad data)
  match (chunk16 ws.length ws).foldl sha256Compress sha256Init with
  | (a, b, c, d, e, f, g, h) =>
    wordToBytes a ++ wordToBytes b ++ wordToBytes c ++ wordToBytes d ++
    wordToBytes e ++ wordToBytes f ++ wordToBytes g ++ wordToBytes h

/-! ## HMAC-SHA256 (RFC 2104) and HKDF (RFC 5869)

`src/ABB.py` calls the `cryptography` HKDF class with `salt=None`, which the
library replaces by a hash-length block of zero bytes before the
extract-then-expand computation. -/

def hmacSha256 (key msg : List Nat) : List Nat :=
  let k0 := if 64 < key.length then sha256 key else key
  let kp := k0 ++ List.replicate (64 - k0.length) 0
  sha256 ((kp.map fun b => b ^^^ 92) ++ sha256 ((kp.map fun b => b ^^^ 54) ++ msg))

def hkdfExtract (salt ikm : List Nat) : List Nat := hmacSha256 salt ikm

/-- The HKDF-Expand block chain `T(1), …, T(n)`, concatenated. -/
def hkdfExpandBlocks : Nat → List Nat → List Nat → List Nat → Nat → List Nat
  | 0, _, _, _, _ => []
  | n + 1, prk, info, prev, ctr =>
    let t := hmacSha256 prk (prev ++ info ++ [ctr])
    t ++ hkdfExpandBlocks n prk info t (ctr + 1)

def hkdfExpand (prk info : List Nat) (len : Nat) : List Nat :=
  (hkdfExpandBlocks ((len + 31) / 32) prk info [] 1).take len

/-- Models `derive_keys` of `src/ABB.py`: HKDF-SHA256 with `salt=None`
(i.e. a 32-byte zero salt), context label `info`, output length `len`. -/
def derive_keys (seed info : List Nat) (len : Nat) : List Nat :=
  hkdfExpand (hkdfExtract (List.replicate 32 0) seed) info len

/-! ## Python-level error outcomes

The scripts define no error kinds of their own; the exceptions that can
escape the modelled code are the built-in/library ones below.  `invalidTag`
is `cryptography.exceptions.InvalidTag`; `binasciiError` is the
`binascii.Error` raised by `base64.b64decode`. -/

inductive PyErr
  | valueError
  | overflowError
  | structError
  | invalidTag
  | binasciiError
deriving DecidableEq, Repr

instance {ε α : Type} [DecidableEq ε] [DecidableEq α] : DecidableEq (Except ε α) := fun x y =>
  match x, y with
  | .ok a, .ok b =>
    if h : a = b then .isTrue (by rw [h]) else .isFalse (by intro hc; cases hc; exact h rfl)
  | .error a, .error b =>
    if h : a = b then .isTrue (by rw [h]) else .isFalse (by intro hc; cases hc; exact h rfl)
  | .ok _, .error _ => .isFalse (by intro hc; cases hc)
  | .error _, .ok _ => .isFalse (by intro hc; cases hc)

/-! ## AES-256 (FIPS 197)

The S-box is stored packed into one natural number, entry `b` in bits
`[8b, 8b+8)`; the GF(2^8) arithmetic that generates it is exercised through
`xtime` in MixColumns, and the cipher as a whole is checked against the
FIPS-197 and NIST SP 800-38D test vectors below. -/

def sboxTable : Nat :=
  0x16bb54b00f2d99416842e6bf0d89a18cdf2855cee9871e9b948ed9691198f8e19e1dc186b95735610ef6034866b53e708a8bbd4b1f74dde8c6b4a61c2e2578ba08ae7a65eaf4566ca94ed58d6d37c8e779e4959162acd3c25c2406490a3a32e0db0b5ede14b8ee4688902a22dc4f816073195d643d7ea7c41744975fec130ccdd2f3ff1021dab6bcf5389d928f40a351a89f3c507f02f94585334d43fbaaefd0cf584c4a39becb6a5bb1fc20ed00d153842fe329b3d63b52a05a6e1b1a2c830975b227ebe28012079a059618c323c7041531d871f1e5a534ccf73f362693fdb7c072a49cafa2d4adf04759fa7dc982ca76abd7fe2b670130c56f6bf27b777c63

def sbox (b : Nat) : Nat := (sboxTable >>> (8 * b)) &&& 255

/-- Multiplication by `x` in GF(2^8) modulo `x^8 + x^4 + x^3 + x + 1`. -/
def xtime (b : Nat) : Nat := if b < 128 then b <<< 1 else ((b <<< 1) ^^^ 27) &&& 255

def subWord (w : Nat) : Nat :=
  (sbox ((w >>> 24) &&& 255)) <<< 24 ||| (sbox ((w >>> 16) &&& 255)) <<< 16 |||
  (sbox ((w >>> 8) &&& 255)) <<< 8 ||| sbox (w &&& 255)

def rotWord (w : Nat) : Nat := u32 ((w <<< 8) ||| (w >>> 24))

def rconVal (j : Nat) : Nat := [0, 1, 2, 4, 8, 16, 32, 64].getD j 0

/-- AES-256 key-schedule tail: emit `fuel` words starting at index `i`,
given the window of the previous eight words. -/
def keyExpandAux : Nat → Nat → List Nat → List Nat
  | 0, _, _ => []
  | f + 1, i, window =>
    let temp := window.getD 7 0
    let temp := if i % 8 = 0 then (subWord (rotWord temp)) ^^^ ((rconVal (i / 8)) <<< 24)
                else if i % 8 = 4 then subWord temp else temp
    let nw := (window.getD 0 0) ^^^ temp
    nw :: keyExpandAux f (i + 1) (window.drop 1 ++ [nw])

/-- The 15 round keys of AES-256, each as 16 bytes. -/
def roundKeys (key : List Nat) : List (List Nat) :=
  let k8 := bytesToWords key
  let ws := k8 ++ keyExpandAux 52 8 k8
  chunk16 240 (ws.flatMap wordToBytes)

/-- ShiftRows on the flat 16-byte column-major state: position `r + 4c`
receives the byte at `r + 4((c + r) mod 4)`. -/
def shiftRows (l : List Nat) : List Nat :=
  [l.getD 0 0, l.getD 5 0, l.getD 10 0, l.getD 15 0,
   l.getD 4 0, l.getD 9 0, l.getD 14 0, l.getD 3 0,
   l.getD 8 0, l.getD 13 0, l.getD 2 0, l.getD 7 0,
   l.getD 12 0, l.getD 1 0, l.getD 6 0, l.getD 11 0]

def mixColumns : List Nat → List Nat
  | a0 :: a1 :: a2 :: a3 :: rest =>
    (xtime a0 ^^^ (xtime a1 ^^^ a1) ^^^ a2 ^^^ a3) ::
    (a0 ^^^ xtime a1 ^^^ (xtime a2 ^^^ a2) ^^^ a3) ::
    (a0 ^^^ a1 ^^^ xtime a2 ^^^ (xtime a3 ^^^ a3)) ::
    ((xtime a0 ^^^ a0) ^^^ a1 ^^^ a2 ^^^ xtime a3) :: mixColumns rest
  | l => l

def addRoundKey (st rk : List Nat) : List Nat := List.zipWith (fun a b => a ^^^ b) st rk

/-- Apply the remaining rounds given their round keys (the last one without
MixColumns). -/
def aesRounds : List (List Nat) → List Nat → List Nat
  | [], st => st
  | [rk], st => addRoundKey (shiftRows (st.map sbox)) rk
  | rk :: rks, st => aesRounds rks (addRoundKey (mixColumns (shiftRows (st.map sbox))) rk)

def aesEncryptBlock (key block : List Nat) : List Nat :=
  match roundKeys key with
  | rk0 :: rest => aesRounds rest (addRoundKey block rk0)
  | [] => block

/-! ## GCM (NIST SP 800-38D) -/

/-- Multiplication in GF(2^128); blocks are naturals read big-endian, bit 0
of the GCM spec being the most significant bit. -/
def gf128Aux : Nat → Nat → Nat → Nat → Nat
  | 0, _, _, z => z
  | f + 1, x, v, z =>
    let z' := if (x >>> 127) &&& 1 = 1 then z ^^^ v else z
    let v' := if v &&& 1 = 1 then (v >>> 1) ^^^ 0xe1000000000000000000000000000000 else v >>> 1
    gf128Aux f ((x <<< 1) &&& (2 ^ 128 - 1)) v' z'

def gf128mul (x y : Nat) : Nat := gf128Aux 128 x y 0

def padTo16 (l : List Nat) : List Nat := l ++ List.replicate ((16 - l.length % 16) % 16) 0

def ghash (h : Nat) (data : List Nat) : Nat :=
  (chunk16 data.length data).foldl (fun y blk => gf128mul (y ^^^ bytesToNatBE blk) h) 0

/-- The pre-counter block `J0`. -/
def gcmJ0 (h : Nat) (nonce : List Nat) : Nat :=
  if nonce.length = 12 then bytesToNatBE (nonce ++ [0, 0, 0, 1])
  else ghash h (padTo16 nonce ++ natToBytesBE 8 0 ++ natToBytesBE 8 (nonce.length * 8))

/-- Increment the low 32 bits of a counter block. -/
def inc32 (b : Nat) : Nat := ((b >>> 32) <<< 32) ||| u32 ((b &&& 4294967295) + 1)

/-- `fuel` counter blocks of keystream starting at counter block `cb`. -/
def gctrBlocks : Nat → List Nat → Nat → List Nat
  | 0, _, _ => []
  | n + 1, key, cb => aesEncryptBlock key (natToBytesBE 16 cb) ++ gctrBlocks n key (inc32 cb)

/-- CTR en/decryption of `data` with initial counter block `icb`. -/
def ctrCrypt (key : List Nat) (icb : Nat) (data : List Nat) : List Nat :=
  List.zipWith (fun a b => a ^^^ b) data (gctrBlocks ((data.length + 15) / 16) key icb)

/-- The GCM authentication tag over ciphertext `ct` and associated data
`aad`. -/
def gcmTag (key nonce ct aad : List Nat) : List Nat :=
  let h := bytesToNatBE (aesEncryptBlock key (List.replicate 16 0))
  let j0 := gcmJ0 h nonce
  let s := ghash h (padTo16 aad ++ padTo16 ct ++ natToBytesBE 8 (aad.length * 8)
                     ++ natToBytesBE 8 (ct.length * 8))
  addRoundKey (aesEncryptBlock key (natToBytesBE 16 j0)) (natToBytesBE 16 s)

/-- GCM encryption (ciphertext followed by the 16-byte tag), without the
library's parameter checks. -/
def aesgcmSeal (key nonce pt aad : List Nat) : List Nat :=
  let h := bytesToNatBE (aesEncryptBlock key (List.replicate 16 0))
  let ct := ctrCrypt key (inc32 (gcmJ0 h nonce)) pt
  ct ++ gcmTag key nonce ct aad

/-- Models `AESGCM(key).encrypt(nonce, pt, aad)` of the `cryptography`
library: the constructor rejects keys that are not 16/24/32 bytes and
`encrypt` rejects nonces shorter than 8 or longer than 128 bytes, both with
`ValueError` (the library's 2^31-byte size cap is idealized away). -/
def aesgcmEncrypt (key nonce pt aad : List Nat) : Except PyErr (List Nat) :=
  if key.length = 16 ∨ key.length = 24 ∨ key.length = 32 then
    if nonce.length < 8 ∨ 128 < nonce.length then .error .valueError
    else .ok (aesgcmSeal key nonce pt aad)
  else .error .valueError

/-- Models `AESGCM(key).decrypt(nonce, data, aad)`: after the constructor
and nonce checks, data shorter than the 16-byte tag is rejected with
`InvalidTag`; otherwise the tag over the leading ciphertext is recomputed
and compared, and only on a match is the CTR decryption returned. -/
def aesgcmDecrypt (key nonce data aad : List Nat) : Except PyErr (List Nat) :=
  if key.length = 16 ∨ key.length = 24 ∨ key.length = 32 then
    if nonce.length < 8 ∨ 128 < nonce.length then .error .valueError
    else if data.length < 16 then .error .invalidTag
    else
      let ct := data.take (data.length - 16)
      let tag := data.drop (data.length - 16)
      if gcmTag key nonce ct aad = tag then
        .ok (ctrCrypt key (inc32 (gcmJ0 (bytesToNatBE (aesEncryptBlock key (List.replicate 16 0))) nonce)) ct)
      else .error .invalidTag
  else .error .valueError

/-! ## `src/ABB.py` — the coordinate-seeded scheme

Python floats are idealized as exact rationals extended with the three
non-finite values; `round` is Python's builtin round-half-to-even, which on
a non-finite argument raises `ValueError` (NaN) or `OverflowError`
(infinities). -/

inductive PyFloat
  | finite (q : ℚ)
  | nan
  | inf
  | ninf
deriving DecidableEq

/-- `x * scale` for a positive integer `scale` (the `10**precision` of
`coords_to_bytes`). -/
def pyMulNat (x : PyFloat) (n : Nat) : PyFloat :=
  match x with
  | .finite q => .finite (q * n)
  | .nan => .nan
  | .inf => .inf
  | .ninf => .ninf

/-- Round-half-to-even on rationals (Python's builtin `round`). -/
def roundHalfEven (q : ℚ) : ℤ :=
  if q - ⌊q⌋ < 1 / 2 then ⌊q⌋
  else if 1 / 2 < q - ⌊q⌋ then ⌊q⌋ + 1
  else if ⌊q⌋ % 2 = 0 then ⌊q⌋ else ⌊q⌋ + 1

/-- Python `round` on a float: `ValueError` on NaN, `OverflowError` on
±infinity. -/
def pyRound (x : PyFloat) : Except PyErr ℤ :=
  match x with
  | .finite q => .ok (roundHalfEven q)
  | .nan => .error .valueError
  | .inf => .error .overflowError
  | .ninf => .error .overflowError

/-- `struct.pack("!q", i)`: 8-byte signed big-endian, `struct.error`
outside the signed 64-bit range. -/
def packInt64 (i : ℤ) : Except PyErr (List Nat) :=
  if i < -(2 ^ 63) ∨ 2 ^ 63 ≤ i then .error .structError
  else .ok (natToBytesBE 8 (i % (2 ^ 64 : ℤ)).toNat)

/-- Models `coords_to_bytes` of `src/ABB.py`.  Per pair, both components
are rounded first and then packed (the Python statement order), so a
rounding exception on `y` preempts a packing exception on `x`. -/
def coords_to_bytes : List (PyFloat × PyFloat) → Nat → Except PyErr (List Nat)
  | [], _ => .ok []
  | (x, y) :: rest, precision => do
    let xi ← pyRound (pyMulNat x (10 ^ precision))
    let yi ← pyRound (pyMulNat y (10 ^ precision))
    let xb ← packInt64 xi
    let yb ← packInt64 yi
    let rb ← coords_to_bytes rest precision
    return xb ++ yb ++ rb

/-- The context label `b"coords->aes256"`. -/
def infoCoordsAes : List Nat := [99, 111, 111, 114, 100, 115, 45, 62, 97, 101, 115, 50, 53, 54]

/-- Models `encrypt_with_coords` of `src/ABB.py`.  The two `os.urandom`
draws (16-byte salt, 12-byte nonce) are passed in explicitly. -/
def encrypt_with_coords (coords : List (PyFloat × PyFloat))
    (plaintext associated_data salt nonce : List Nat) : Except PyErr (List Nat) := do
  let coord_b ← coords_to_bytes coords 6
  let seed := sha256 (coord_b ++ salt)
  let aes_key := derive_keys seed infoCoordsAes 32
  let ct ← aesgcmEncrypt aes_key nonce plaintext associated_data
  return salt ++ nonce ++ ct

/-- Models `decrypt_with_coords` of `src/ABB.py`: slices
`packaged[:16]`, `packaged[16:28]`, `packaged[28:]` with no length
validation, re-derives the key, and calls AESGCM decryption. -/
def decrypt_with_coords (coords : List (PyFloat × PyFloat))
    (packaged associated_data : List Nat) : Except PyErr (List Nat) := do
  let salt := packaged.take 16
  let nonce := (packaged.drop 16).take 12
  let ct := packaged.drop 28
  let coord_b ← coords_to_bytes coords 6
  let seed := sha256 (coord_b ++ salt)
  let aes_key := derive_keys seed infoCoordsAes 32
  aesgcmDecrypt aes_key nonce ct associated_data

/-! ## `src/GVEMPlus/ABB.py` — the measurement-pool variant

Only the crypto-relevant tail of `take_screenshot_and_process` is
modelled: the already-detected feature triples `(cx, cy, area)` (the OpenCV
contour extraction is the out-of-scope EntropySource), the 64 sampled
pixel-intensity bytes, and the 32 `os.urandom` bytes are inputs. -/

abbrev Feature := Int × Int × Int

/-- Insert before the first element whose area is not larger; together with
`pySortByAreaDesc` this is exactly Python's stable
`sorted(key=lambda x: x[2], reverse=True)`. -/
def insertByAreaDesc (f : Feature) : List Feature → List Feature
  | [] => [f]
  | g :: gs => if g.2.2 ≤ f.2.2 then f :: g :: gs else g :: insertByAreaDesc f gs

def pySortByAreaDesc : List Feature → List Feature
  | [] => []
  | f :: fs => insertByAreaDesc f (pySortByAreaDesc fs)

/-- The assignment loop `for i, f in enumerate(features): vec[i*3+j] = …`
over the `np.zeros(128*3, int32)` array. -/
def fillVec (vec : List Int) (i : Nat) : List Feature → List Int
  | [] => vec
  | f :: fs =>
    fillVec (((vec.set (3 * i) f.1).set (3 * i + 1) f.2.1).set (3 * i + 2) f.2.2) (i + 1) fs

/-- An `int32` array entry serialized as NumPy `tobytes()` does on a
little-endian host: 4-byte two's-complement little-endian. -/
def int32ToBytesLE (v : Int) : List Nat := natToBytesLE 4 ((v % (2 ^ 32 : ℤ)).toNat)

/-- The entropy pool of `take_screenshot_and_process` (lines 167–191):
`vec.tobytes()` of the zero-initialized 128×3 int32 slot array filled with
the (stably) area-descending top-128 features, then the 64 sampled pixel
bytes, then `os.urandom(32)`. -/
def screenshot_pool (features : List Feature) (sampleBytes osRandom : List Nat) : List Nat :=
  (fillVec (List.replicate 384 (0 : ℤ)) 0 ((pySortByAreaDesc features).take 128)).flatMap
      int32ToBytesLE
    ++ sampleBytes ++ osRandom

/-- The derived key of `take_screenshot_and_process`:
`hashlib.sha256(pool).digest()`. -/
def screenshot_derived_key (features : List Feature) (sampleBytes osRandom : List Nat) :
    List Nat :=
  sha256 (screenshot_pool features sampleBytes osRandom)

/-! ### base64 (used by `encrypt_phrase` / `decrypt_ciphertext`) -/

def b64char (v : Nat) : Nat :=
  if v < 26 then v + 65 else if v < 52 then v + 71
  else if v < 62 then v - 4 else if v = 62 then 43 else 47

def b64val (c : Nat) : Except PyErr Nat :=
  if 65 ≤ c ∧ c ≤ 90 then .ok (c - 65)
  else if 97 ≤ c ∧ c ≤ 122 then .ok (c - 71)
  else if 48 ≤ c ∧ c ≤ 57 then .ok (c + 4)
  else if c = 43 then .ok 62
  else if c = 47 then .ok 63
  else .error .binasciiError

def b64encode : List Nat → List Nat
  | [] => []
  | [a] =>
    let n := a * 65536
    [b64char (n / 262144), b64char (n / 4096 % 64), 61, 61]
  | [a, b] =>
    let n := a * 65536 + b * 256
    [b64char (n / 262144), b64char (n / 4096 % 64), b64char (n / 64 % 64), 61]
  | a :: b :: c :: rest =>
    let n := a * 65536 + b * 256 + c
    b64char (n / 262144) :: b64char (n / 4096 % 64) :: b64char (n / 64 % 64) ::
      b64char (n % 64) :: b64encode rest

/-- `base64.b64decode` restricted to well-formed quads (every value the
program ever decodes is an output of `b64encode`; `61` is the padding
character `'='`). -/
def b64decode : List Nat → Except PyErr (List Nat)
  | [] => .ok []
  | a :: b :: c :: d :: rest => do
    let va ← b64val a
    let vb ← b64val b
    if c = 61 then
      if d = 61 ∧ rest = [] then pure [va * 4 + vb / 16] else .error .binasciiError
    else do
      let vc ← b64val c
      if d = 61 then
        if rest = [] then pure [va * 4 + vb / 16, vb % 16 * 16 + vc / 4]
        else .error .binasciiError
      else do
        let vd ← b64val d
        let tl ← b64decode rest
        pure ((va * 4 + vb / 16) :: (vb % 16 * 16 + vc / 4) :: (vc % 4 * 64 + vd) :: tl)
  | _ => .error .binasciiError

/-! ### strict UTF-8 decoding (`bytes.decode("utf-8")`) -/

/-- Fueled strict UTF-8 decoder to code points: rejects overlong forms,
surrogates, and code points above U+10FFFF, as CPython's strict codec
does. -/
def utf8DecodeF : Nat → List Nat → Option (List Nat)
  | _, [] => some []
  | 0, _ => none
  | f + 1, b :: rest =>
    if b < 128 then (utf8DecodeF f rest).map (b :: ·)
    else if 194 ≤ b ∧ b ≤ 223 then
      match rest with
      | c :: r2 =>
        if 128 ≤ c ∧ c ≤ 191 then
          (utf8DecodeF f r2).map (((b - 192) * 64 + (c - 128)) :: ·)
        else none
      | _ => none
    else if 224 ≤ b ∧ b ≤ 239 then
      match rest with
      | c :: d :: r3 =>
        if (if b = 224 then 160 else 128) ≤ c ∧ c ≤ (if b = 237 then 159 else 191)
            ∧ 128 ≤ d ∧ d ≤ 191 then
          (utf8DecodeF f r3).map (((b - 224) * 4096 + (c - 128) * 64 + (d - 128)) :: ·)
        else none
      | _ => none
    else if 240 ≤ b ∧ b ≤ 244 then
      match rest with
      | c :: d :: e :: r4 =>
        if (if b = 240 then 144 else 128) ≤ c ∧ c ≤ (if b = 244 then 143 else 191)
            ∧ 128 ≤ d ∧ d ≤ 191 ∧ 128 ≤ e ∧ e ≤ 191 then
          (utf8DecodeF f r4).map
            (((b - 240) * 262144 + (c - 128) * 4096 + (d - 128) * 64 + (e - 128)) :: ·)
        else none
      | _ => none
    else none

def pyUtf8Decode (l : List Nat) : Option (List Nat) := utf8DecodeF l.length l

/-- Models `encrypt_phrase` (ciphertext side): `None` key leaves the
ciphertext unset; otherwise the stored value is
`base64.b64encode(nonce + ct)`. -/
def encrypt_phrase (derived_key : Option (List Nat)) (phraseUtf8 nonce : List Nat) :
    Except PyErr (Option (List Nat)) :=
  match derived_key with
  | none => .ok none
  | some k => (aesgcmEncrypt k nonce phraseUtf8 []).map fun ct => some (b64encode (nonce ++ ct))

/-- Models `decrypt_ciphertext` of `src/GVEMPlus/ABB.py`.  `.ok none` is
Python's `return None`; `.error e` is an uncaught exception.  The
`base64.b64decode` call and the `AESGCM(derived_key)` constructor sit
before the `try:` block, so their exceptions propagate; everything inside
the `try` (nonce validation, tag verification, UTF-8 decoding) is swallowed
into `None`. -/
def decrypt_ciphertext (ciphertext_b64 derived_key : Option (List Nat)) :
    Except PyErr (Option (List Nat)) :=
  match ciphertext_b64, derived_key with
  | none, _ => .ok none
  | some _, none => .ok none
  | some cb, some key =>
    match b64decode cb with
    | .error e => .error e
    | .ok raw =>
      if key.length = 16 ∨ key.length = 24 ∨ key.length = 32 then
        match aesgcmDecrypt key (raw.take 12) (raw.drop 12) [] with
        | .error _ => .ok none
        | .ok pt => .ok (pyUtf8Decode pt)
      else .error .valueError


/-! ## Primitive validation against published test vectors -/

/-- FIPS 180-4: SHA-256 of `"abc"`. -/
theorem sha256_fips_vector : sha256 [97, 98, 99] =
    [0xba, 0x78, 0x16, 0xbf, 0x8f, 0x01, 0xcf, 0xea, 0x41, 0x41, 0x40, 0xde,
     0x5d, 0xae, 0x22, 0x23, 0xb0, 0x03, 0x61, 0xa3, 0x96, 0x17, 0x7a, 0x9c,
     0xb4, 0x10, 0xff, 0x61, 0xf2, 0x00, 0x15, 0xad] := by decide

/-- RFC 4231 test case 2 for HMAC-SHA256. -/
theorem hmac_rfc4231_vector :
    hmacSha256 [74, 101, 102, 101]
      [119, 104, 97, 116, 32, 100, 111, 32, 121, 97, 32, 119, 97, 110, 116,
       32, 102, 111, 114, 32, 110, 111, 116, 104, 105, 110, 103, 63] =
    [0x5b, 0xdc, 0xc1, 0x46, 0xbf, 0x60, 0x75, 0x4e, 0x6a, 0x04, 0x24, 0x26,
     0x08, 0x95, 0x75, 0xc7, 0x5a, 0x00, 0x3f, 0x08, 0x9d, 0x27, 0x39, 0x83,
     0x9d, 0xec, 0x58, 0xb9, 0x64, 0xec, 0x38, 0x43] := by decide

/-- FIPS 197 appendix C.3: the AES-256 cipher on the standard example. -/
theorem aes256_fips_vector :
    aesEncryptBlock (List.range 32)
      [0x00, 0x11, 0x22, 0x33, 0x44, 0x55, 0x66, 0x77,
       0x88, 0x99, 0xaa, 0xbb, 0xcc, 0xdd, 0xee, 0xff] =
    [0x8e, 0xa2, 0xb7, 0xca, 0x51, 0x67, 0x45, 0xbf,
     0xea, 0xfc, 0x49, 0x90, 0x4b, 0x49, 0x60, 0x89] := by decide

/-- NIST SP 800-38D AES-256-GCM vector: zero key and nonce, 16 zero bytes of
plaintext, empty associated data. -/
theorem gcm_nist_vector :
    aesgcmEncrypt (List.replicate 32 0) (List.replicate 12 0) (List.replicate 16 0) [] =
    .ok [0xce, 0xa7, 0x40, 0x3d, 0x4d, 0x60, 0x6b, 0x6e, 0x07, 0x4e, 0xc5, 0xd3,
         0xba, 0xf3, 0x9d, 0x18, 0xd0, 0xd1, 0xc8, 0xa7, 0x99, 0x99, 0x6b, 0xf0,
         0x26, 0x5b, 0x98, 0xb5, 0xd4, 0x8a, 0xb9, 0x19] := by decide

/-! ## Length and shape lemmas -/

theorem natToBytesBE_length : ∀ k n, (natToBytesBE k n).length = k
  | 0, _ => rfl
  | k + 1, n => by simp [natToBytesBE, natToBytesBE_length k]

theorem natToBytesLE_length : ∀ k n, (natToBytesLE k n).length = k
  | 0, _ => rfl
  | k + 1, n => by simp [natToBytesLE, natToBytesLE_length k]

theorem sha256_length (data : List Nat) : (sha256 data).length = 32 := by
  simp [sha256, wordToBytes]

theorem hmacSha256_length (key msg : List Nat) : (hmacSha256 key msg).length = 32 :=
  sha256_length _

theorem derive_keys_length (seed info : List Nat) : (derive_keys seed info 32).length = 32 := by
  simp [derive_keys, hkdfExpand, hkdfExpandBlocks, hmacSha256_length, hkdfExtract]

theorem shiftRows_length (l : List Nat) : (shiftRows l).length = 16 := rfl

theorem mixColumns_length : ∀ l : List Nat, (mixColumns l).length = l.length
  | [] => rfl
  | [_] => rfl
  | [_, _] => rfl
  | [_, _, _] => rfl
  | _ :: _ :: _ :: _ :: rest => by simp [mixColumns, mixColumns_length rest]

theorem addRoundKey_length (st rk : List Nat) :
    (addRoundKey st rk).length = min st.length rk.length := by
  simp [addRoundKey]

theorem bytesToWords_length : ∀ l : List Nat, (bytesToWords l).length = l.length / 4
  | [] => by simp [bytesToWords]
  | [_] => by simp [bytesToWords]
  | [_, _] => by simp [bytesToWords]
  | [_, _, _] => by simp [bytesToWords]
  | _ :: _ :: _ :: _ :: rest => by
    simp [bytesToWords, bytesToWords_length rest]
    omega

theorem keyExpandAux_length : ∀ fuel i w, (keyExpandAux fuel i w).length = fuel
  | 0, _, _ => rfl
  | fuel + 1, i, w => by simp [keyExpandAux, keyExpandAux_length fuel]

theorem flatMap_wordToBytes_length :
    ∀ ws : List Nat, (ws.flatMap wordToBytes).length = 4 * ws.length
  | [] => rfl
  | w :: rest => by
    simp [List.flatMap_cons, flatMap_wordToBytes_length rest, wordToBytes]
    omega

theorem chunk16_cons_of_ne_nil (fuel : Nat) (l : List Nat) (h : l ≠ []) :
    chunk16 (fuel + 1) l = l.take 16 :: chunk16 fuel (l.drop 16) := by
  cases l with
  | nil => exact absurd rfl h
  | cons a t => rfl

theorem chunk16_mem_length :
    ∀ fuel (l : List Nat) c, 16 ∣ l.length → c ∈ chunk16 fuel l → c.length = 16
  | 0, l, c => by intro _ h; simp [chunk16] at h
  | fuel + 1, [], c => by intro _ h; simp [chunk16] at h
  | fuel + 1, a :: l, c => by
    intro hdvd hmem
    have hlen : 16 ≤ (a :: l).length := Nat.le_of_dvd (by simp) hdvd
    rw [chunk16_cons_of_ne_nil fuel (a :: l) (by simp)] at hmem
    rcases List.mem_cons.mp hmem with h | h
    · subst h
      rw [List.length_take]
      omega
    · refine chunk16_mem_length fuel _ c ?_ h
      rw [List.length_drop]
      exact Nat.dvd_sub' hdvd (dvd_refl 16)


theorem roundKeys_bytes_length (key : List Nat) (h : key.length = 32) :
    ((bytesToWords key ++ keyExpandAux 52 8 (bytesToWords key)).flatMap wordToBytes).length
      = 240 := by
  rw [flatMap_wordToBytes_length, List.length_append, bytesToWords_length,
    keyExpandAux_length, h]

theorem roundKeys_mem_length (key : List Nat) (h : key.length = 32) :
    ∀ rk ∈ roundKeys key, rk.length = 16 := by
  intro rk hrk
  refine chunk16_mem_length 240 _ rk ?_ hrk
  rw [roundKeys_bytes_length key h]
  norm_num

theorem roundKeys_shape (key : List Nat) (h : key.length = 32) :
    ∃ rk0 rest, roundKeys key = rk0 :: rest ∧ rest ≠ [] := by
  have hb := roundKeys_bytes_length key h
  unfold roundKeys
  rw [show (240 : Nat) = 239 + 1 from rfl,
    chunk16_cons_of_ne_nil 239 _ (by intro hnil; rw [hnil] at hb; simp at hb)]
  refine ⟨_, _, rfl, ?_⟩
  have hd : ((bytesToWords key ++ keyExpandAux 52 8 (bytesToWords key)).flatMap
      wordToBytes).drop 16 ≠ [] := by
    intro hnil
    have := congrArg List.length hnil
    rw [List.length_drop, hb] at this
    simp at this
  rw [show (239 : Nat) = 238 + 1 from rfl, chunk16_cons_of_ne_nil 238 _ hd]
  simp

theorem aesRounds_length :
    ∀ rks st, rks ≠ [] → (∀ rk ∈ rks, rk.length = 16) → (aesRounds rks st).length = 16
  | [], _, h, _ => absurd rfl h
  | [rk], st, _, hall => by
    have h16 : rk.length = 16 := hall rk (by simp)
    simp [aesRounds, addRoundKey_length, shiftRows_length, h16]
  | rk :: rk2 :: rks, st, _, hall => by
    rw [show aesRounds (rk :: rk2 :: rks) st
        = aesRounds (rk2 :: rks) (addRoundKey (mixColumns (shiftRows (st.map sbox))) rk)
      from rfl]
    exact aesRounds_length (rk2 :: rks) _ (by simp) fun r hr => hall r (by simp [hr])

theorem aesEncryptBlock_length (key block : List Nat) (h : key.length = 32) :
    (aesEncryptBlock key block).length = 16 := by
  obtain ⟨rk0, rest, hsh, hne⟩ := roundKeys_shape key h
  rw [aesEncryptBlock, hsh]
  exact aesRounds_length rest _ hne fun rk hr =>
    roundKeys_mem_length key h rk (hsh ▸ List.mem_cons_of_mem _ hr)

theorem gctrBlocks_length (key : List Nat) (hk : key.length = 32) :
    ∀ n cb, (gctrBlocks n key cb).length = 16 * n := by
  intro n
  induction n with
  | zero => intro cb; rfl
  | succ m ih =>
    intro cb
    simp [gctrBlocks, aesEncryptBlock_length key _ hk, ih]
    omega

theorem ctrCrypt_length (key : List Nat) (icb : Nat) (data : List Nat)
    (hk : key.length = 32) : (ctrCrypt key icb data).length = data.length := by
  simp [ctrCrypt, gctrBlocks_length key hk]
  omega

theorem gcmTag_length (key nonce ct aad : List Nat) (hk : key.length = 32) :
    (gcmTag key nonce ct aad).length = 16 := by
  simp [gcmTag, addRoundKey_length, aesEncryptBlock_length key _ hk, natToBytesBE_length]

theorem aesgcmSeal_length (key nonce pt aad : List Nat) (hk : key.length = 32) :
    (aesgcmSeal key nonce pt aad).length = pt.length + 16 := by
  simp [aesgcmSeal, ctrCrypt_length key _ _ hk, gcmTag_length key _ _ _ hk]

theorem zipWith_xor_cancel :
    ∀ p ks : List Nat, p.length ≤ ks.length →
      List.zipWith (fun a b => a ^^^ b) (List.zipWith (fun a b => a ^^^ b) p ks) ks = p
  | [], _, _ => by simp
  | _ :: _, [], h => by simp at h
  | a :: p, k :: ks, h => by
    simp [zipWith_xor_cancel p ks (by simpa using h), Nat.xor_assoc]

theorem ctrCrypt_invol (key : List Nat) (icb : Nat) (pt : List Nat) (hk : key.length = 32) :
    ctrCrypt key icb (ctrCrypt key icb pt) = pt := by
  have hlen := ctrCrypt_length key icb pt hk
  rw [show ctrCrypt key icb (ctrCrypt key icb pt)
      = List.zipWith (fun a b => a ^^^ b) (ctrCrypt key icb pt)
          (gctrBlocks (((ctrCrypt key icb pt).length + 15) / 16) key icb) from rfl,
    hlen, ctrCrypt]
  refine zipWith_xor_cancel pt _ ?_
  rw [gctrBlocks_length key hk]
  omega

/-- The observable behaviour of library AESGCM decryption on a package that
splits as ciphertext followed by a 16-byte tag. -/
theorem aesgcmDecrypt_append (key nonce ct tag aad : List Nat)
    (hkor : key.length = 16 ∨ key.length = 24 ∨ key.length = 32)
    (h8 : 8 ≤ nonce.length) (h128 : nonce.length ≤ 128) (htag : tag.length = 16) :
    aesgcmDecrypt key nonce (ct ++ tag) aad =
      if gcmTag key nonce ct aad = tag then
        .ok (ctrCrypt key
          (inc32 (gcmJ0 (bytesToNatBE (aesEncryptBlock key (List.replicate 16 0))) nonce)) ct)
      else .error .invalidTag := by
  have hlen : (ct ++ tag).length = ct.length + 16 := by rw [List.length_append, htag]
  have htake : (ct ++ tag).take ((ct ++ tag).length - 16) = ct := by
    rw [hlen, Nat.add_sub_cancel, List.take_left' rfl]
  have hdrop : (ct ++ tag).drop ((ct ++ tag).length - 16) = tag := by
    rw [hlen, Nat.add_sub_cancel, List.drop_left' rfl]
  rw [aesgcmDecrypt, if_pos hkor, if_neg (by omega), if_neg (by omega), htake, hdrop]

theorem aesgcmSeal_eq (key nonce pt aad : List Nat) :
    aesgcmSeal key nonce pt aad =
      ctrCrypt key
          (inc32 (gcmJ0 (bytesToNatBE (aesEncryptBlock key (List.replicate 16 0))) nonce)) pt
        ++ gcmTag key nonce
          (ctrCrypt key
            (inc32 (gcmJ0 (bytesToNatBE (aesEncryptBlock key (List.replicate 16 0))) nonce)) pt)
          aad := rfl

/-- AEAD round trip: decrypting a sealed message with the same key, nonce
and associated data recovers the plaintext. -/
theorem aesgcm_roundtrip (key nonce pt aad : List Nat) (hk : key.length = 32)
    (h8 : 8 ≤ nonce.length) (h128 : nonce.length ≤ 128) :
    aesgcmDecrypt key nonce (aesgcmSeal key nonce pt aad) aad = .ok pt := by
  rw [aesgcmSeal_eq,
    aesgcmDecrypt_append key nonce _ _ aad (Or.inr (Or.inr hk)) h8 h128
      (gcmTag_length key _ _ _ hk),
    if_pos rfl, ctrCrypt_invol key _ pt hk]

/-! ## Coordinate-encoding lemmas -/

theorem exceptBind_ok {ε α β : Type} (a : α) (f : α → Except ε β) :
    (Except.ok a : Except ε α) >>= f = f a := rfl

theorem exceptBind_error {ε α β : Type} (e : ε) (f : α → Except ε β) :
    (Except.error e : Except ε α) >>= f = .error e := rfl

/-- Is this float finite? -/
def isFin : PyFloat → Bool
  | .finite _ => true
  | _ => false

/-- `round(x * 10^p)` for finite `x` (0 on non-finite input, where
`coords_to_bytes` raises instead). -/
def scaledRound (x : PyFloat) (p : Nat) : ℤ :=
  match pyMulNat x (10 ^ p) with
  | .finite r => roundHalfEven r
  | _ => 0

/-- The signed 64-bit range accepted by `struct.pack("!q", ·)`. -/
def InRange64 (i : ℤ) : Prop := -(2 ^ 63) ≤ i ∧ i < 2 ^ 63

instance (i : ℤ) : Decidable (InRange64 i) := by unfold InRange64; infer_instance

/-- The 8-byte big-endian two's-complement encoding of one scaled, rounded
coordinate component. -/
def encComp (x : PyFloat) (p : Nat) : List Nat :=
  natToBytesBE 8 ((scaledRound x p) % (2 ^ 64 : ℤ)).toNat

def encPair (pr : PyFloat × PyFloat) (p : Nat) : List Nat := encComp pr.1 p ++ encComp pr.2 p

/-- A coordinate pair on which `coords_to_bytes` cannot raise: both
components finite, both scaled roundings inside the packable range. -/
def GoodPair (pr : PyFloat × PyFloat) (p : Nat) : Prop :=
  isFin pr.1 = true ∧ isFin pr.2 = true
    ∧ InRange64 (scaledRound pr.1 p) ∧ InRange64 (scaledRound pr.2 p)

instance (pr : PyFloat × PyFloat) (p : Nat) : Decidable (GoodPair pr p) := by
  unfold GoodPair; infer_instance

theorem pyRound_fin (x : PyFloat) (p : Nat) (h : isFin x = true) :
    pyRound (pyMulNat x (10 ^ p)) = .ok (scaledRound x p) := by
  cases x <;> simp [isFin] at h ⊢ <;> rfl

theorem packInt64_ok (i : ℤ) (h : InRange64 i) :
    packInt64 i = .ok (natToBytesBE 8 (i % (2 ^ 64 : ℤ)).toNat) := by
  obtain ⟨h1, h2⟩ := h
  rw [packInt64, if_neg]
  intro hc
  rcases hc with hc | hc <;> omega

theorem encPair_length (pr : PyFloat × PyFloat) (p : Nat) : (encPair pr p).length = 16 := by
  simp [encPair, encComp, natToBytesBE_length]

theorem coords_to_bytes_ok :
    ∀ (coords : List (PyFloat × PyFloat)) p, (∀ pr ∈ coords, GoodPair pr p) →
      coords_to_bytes coords p = .ok (coords.flatMap fun pr => encPair pr p)
  | [], _, _ => rfl
  | (x, y) :: rest, p, hall => by
    obtain ⟨hfx, hfy, hrx, hry⟩ := hall (x, y) (by simp)
    have hrest := coords_to_bytes_ok rest p fun pr hpr => hall pr (by simp [hpr])
    simp [coords_to_bytes, pyRound_fin x p hfx, pyRound_fin y p hfy,
      packInt64_ok _ hrx, packInt64_ok _ hry, hrest, exceptBind_ok, encPair, encComp]

theorem flatMap_encPair_length :
    ∀ (coords : List (PyFloat × PyFloat)) p,
      (coords.flatMap fun pr => encPair pr p).length = 16 * coords.length
  | [], _ => rfl
  | pr :: rest, p => by
    simp [List.flatMap_cons, encPair_length, flatMap_encPair_length rest p]
    omega

theorem pyRound_error_kinds (x : PyFloat) (e : PyErr) (h : pyRound x = .error e) :
    e = .valueError ∨ e = .overflowError := by
  cases x <;> simp [pyRound] at h <;> simp [h]

theorem pyRound_mul_ok_isFin (x : PyFloat) (n : Nat) (i : ℤ)
    (h : pyRound (pyMulNat x n) = .ok i) : isFin x = true := by
  cases x <;> simp [pyRound, pyMulNat] at h <;> rfl

theorem packInt64_error_kind (i : ℤ) (e : PyErr) (h : packInt64 i = .error e) :
    e = .structError := by
  rw [packInt64] at h
  split at h
  · cases h; rfl
  · cases h

theorem coords_to_bytes_err :
    ∀ (coords : List (PyFloat × PyFloat)) p,
      (∃ pr ∈ coords, isFin pr.1 = false ∨ isFin pr.2 = false) →
      ∃ e, (e = PyErr.valueError ∨ e = .overflowError ∨ e = .structError)
        ∧ coords_to_bytes coords p = .error e
  | [], _, h => by simp at h
  | (x, y) :: rest, p, h => by
    cases hx : pyRound (pyMulNat x (10 ^ p)) with
    | error e =>
      refine ⟨e, ?_, by simp [coords_to_bytes, hx, exceptBind_error]⟩
      rcases pyRound_error_kinds _ _ hx with h' | h' <;> simp [h']
    | ok xi =>
      cases hy : pyRound (pyMulNat y (10 ^ p)) with
      | error e =>
        refine ⟨e, ?_, by simp [coords_to_bytes, hx, hy, exceptBind_ok, exceptBind_error]⟩
        rcases pyRound_error_kinds _ _ hy with h' | h' <;> simp [h']
      | ok yi =>
        have hrest : ∃ pr ∈ rest, isFin pr.1 = false ∨ isFin pr.2 = false := by
          rcases h with ⟨pr, hmem, hbad⟩
          rcases List.mem_cons.mp hmem with heq | hmem'
          · exfalso
            subst heq
            rcases hbad with hb | hb
            · rw [pyRound_mul_ok_isFin x _ _ hx] at hb; cases hb
            · rw [pyRound_mul_ok_isFin y _ _ hy] at hb; cases hb
          · exact ⟨pr, hmem', hbad⟩
        cases hpx : packInt64 xi with
        | error e =>
          exact ⟨e, by simp [packInt64_error_kind _ _ hpx],
            by simp [coords_to_bytes, hx, hy, hpx, exceptBind_ok, exceptBind_error]⟩
        | ok xb =>
          cases hpy : packInt64 yi with
          | error e =>
            exact ⟨e, by simp [packInt64_error_kind _ _ hpy],
              by simp [coords_to_bytes, hx, hy, hpx, hpy, exceptBind_ok, exceptBind_error]⟩
          | ok yb =>
            obtain ⟨e, hkind, herr⟩ := coords_to_bytes_err rest p hrest
            exact ⟨e, hkind,
              by simp [coords_to_bytes, hx, hy, hpx, hpy, herr, exceptBind_ok, exceptBind_error]⟩

/-! ## Pipeline equations -/

theorem aesgcmEncrypt_ok (key nonce pt aad : List Nat) (hk : key.length = 32)
    (h8 : 8 ≤ nonce.length) (h128 : nonce.length ≤ 128) :
    aesgcmEncrypt key nonce pt aad = .ok (aesgcmSeal key nonce pt aad) := by
  rw [aesgcmEncrypt, if_pos (Or.inr (Or.inr hk)), if_neg (by omega)]

theorem encrypt_with_coords_eq (coords : List (PyFloat × PyFloat)) (cb P A salt nonce : List Nat)
    (hcb : coords_to_bytes coords 6 = .ok cb)
    (h8 : 8 ≤ nonce.length) (h128 : nonce.length ≤ 128) :
    encrypt_with_coords coords P A salt nonce =
      .ok (salt ++ nonce
        ++ aesgcmSeal (derive_keys (sha256 (cb ++ salt)) infoCoordsAes 32) nonce P A) := by
  simp [encrypt_with_coords, hcb, exceptBind_ok,
    aesgcmEncrypt_ok _ _ _ _ (derive_keys_length _ _) h8 h128]

theorem decrypt_with_coords_eq (coords : List (PyFloat × PyFloat)) (cb packaged A : List Nat)
    (hcb : coords_to_bytes coords 6 = .ok cb) :
    decrypt_with_coords coords packaged A
      = aesgcmDecrypt (derive_keys (sha256 (cb ++ packaged.take 16)) infoCoordsAes 32)
          ((packaged.drop 16).take 12) (packaged.drop 28) A := by
  simp [decrypt_with_coords, hcb, exceptBind_ok]

theorem drop28_append (salt nonce s : List Nat) (hsalt : salt.length = 16)
    (hnonce : nonce.length = 12) : (salt ++ (nonce ++ s)).drop 28 = s := by
  rw [← List.append_assoc]
  apply List.drop_left'
  simp [hsalt, hnonce]

/-! ## Shared concrete inputs (spec §8 scenario and small variants) -/

def specCoords : List (PyFloat × PyFloat) :=
  [(.finite (12971599 / 1000000), .finite (77594566 / 1000000)),
   (.finite (129716 / 10000), .finite (7759456 / 100000))]

def helloBytes : List Nat := [104, 101, 108, 108, 111]

def headerBytes : List Nat := [104, 101, 97, 100, 101, 114]

def otherBytes : List Nat := [111, 116, 104, 101, 114]

def zeroSalt : List Nat := List.replicate 16 0

def zeroNonce : List Nat := List.replicate 12 0

/-! ## Evaluating the encoding on concrete rationals

Kernel reduction cannot evaluate Mathlib's `ℚ` arithmetic, so concrete
scaled roundings are first established by `norm_num` and only the
remaining integer/byte computation is left to `decide`. -/

theorem roundHalfEven_intCast (n : ℤ) : roundHalfEven (n : ℚ) = n := by
  unfold roundHalfEven
  rw [Int.floor_intCast, if_pos (by norm_num)]

theorem scaledRound_finite (q : ℚ) (p : Nat) (n : ℤ) (h : q * ((10 ^ p : ℕ) : ℚ) = (n : ℚ)) :
    scaledRound (.finite q) p = n := by
  rw [show scaledRound (.finite q) p = roundHalfEven (q * ((10 ^ p : ℕ) : ℚ)) from rfl, h,
    roundHalfEven_intCast]

theorem goodPair_mk (qx qy : ℚ) (p : Nat) (nx ny : ℤ)
    (hx : qx * ((10 ^ p : ℕ) : ℚ) = (nx : ℚ)) (hy : qy * ((10 ^ p : ℕ) : ℚ) = (ny : ℚ))
    (hrx : InRange64 nx) (hry : InRange64 ny) :
    GoodPair (.finite qx, .finite qy) p := by
  refine ⟨rfl, rfl, ?_, ?_⟩
  · rw [scaledRound_finite qx p nx hx]; exact hrx
  · rw [scaledRound_finite qy p ny hy]; exact hry

theorem specCoords_good : ∀ pr ∈ specCoords, GoodPair pr 6 := by
  intro pr hpr
  simp only [specCoords, List.mem_cons, List.not_mem_nil, or_false] at hpr
  rcases hpr with h | h <;> subst h
  · exact goodPair_mk _ _ 6 12971599 77594566 (by norm_num) (by norm_num)
      ⟨by norm_num, by norm_num⟩ ⟨by norm_num, by norm_num⟩
  · exact goodPair_mk _ _ 6 12971600 77594560 (by norm_num) (by norm_num)
      ⟨by norm_num, by norm_num⟩ ⟨by norm_num, by norm_num⟩

/-- The canonical 32-byte encoding of the spec scenario seed. -/
def specCB : List Nat :=
  [0, 0, 0, 0, 0, 197, 238, 79, 0, 0, 0, 0, 4, 159, 255, 198,
   0, 0, 0, 0, 0, 197, 238, 80, 0, 0, 0, 0, 4, 159, 255, 192]

theorem specCoords_bytes : coords_to_bytes specCoords 6 = .ok specCB := by
  have e1 : scaledRound (.finite (12971599 / 1000000 : ℚ)) 6 = 12971599 :=
    scaledRound_finite _ _ _ (by norm_num)
  have e2 : scaledRound (.finite (77594566 / 1000000 : ℚ)) 6 = 77594566 :=
    scaledRound_finite _ _ _ (by norm_num)
  have e3 : scaledRound (.finite (129716 / 10000 : ℚ)) 6 = 12971600 :=
    scaledRound_finite _ _ _ (by norm_num)
  have e4 : scaledRound (.finite (7759456 / 100000 : ℚ)) 6 = 77594560 :=
    scaledRound_finite _ _ _ (by norm_num)
  rw [coords_to_bytes_ok specCoords 6 specCoords_good]
  simp only [specCoords, List.flatMap_cons, List.flatMap_nil, encPair, encComp, e1, e2, e3, e4,
    List.append_nil]
  decide

/-! ## Claims -/

/-- C1 (amended): for every coordinate list whose components are finite
*and whose scaled roundings fit the packable signed 64-bit range*, every
plaintext and associated data, decrypting the package produced by
encryption with the same coordinates and associated data returns the
plaintext (the salt and nonce being the 16- and 12-byte `os.urandom`
draws). -/
theorem C1_roundtrip (coords : List (PyFloat × PyFloat)) (P A salt nonce : List Nat)
    (hgood : ∀ pr ∈ coords, GoodPair pr 6)
    (hsalt : salt.length = 16) (hnonce : nonce.length = 12) :
    (encrypt_with_coords coords P A salt nonce >>= fun pkg =>
      decrypt_with_coords coords pkg A) = .ok P := by
  have hcb := coords_to_bytes_ok coords 6 hgood
  have h8 : 8 ≤ nonce.length := by omega
  have h128 : nonce.length ≤ 128 := by omega
  rw [encrypt_with_coords_eq coords _ P A salt nonce hcb h8 h128, exceptBind_ok,
    decrypt_with_coords_eq coords _ _ A hcb, List.append_assoc,
    List.take_left' hsalt, List.drop_left' hsalt, List.take_left' hnonce,
    drop28_append _ _ _ hsalt hnonce]
  exact aesgcm_roundtrip _ _ P A (derive_keys_length _ _) h8 h128

/-- Witness for C1 at the spec scenario seed with plaintext `"hi"`. -/
theorem C1_roundtrip_witness :
    (∀ pr ∈ specCoords, GoodPair pr 6) ∧ zeroSalt.length = 16 ∧ zeroNonce.length = 12 ∧
    (encrypt_with_coords specCoords [104, 105] headerBytes zeroSalt zeroNonce >>= fun pkg =>
      decrypt_with_coords specCoords pkg headerBytes) = .ok [104, 105] :=
  ⟨specCoords_good, rfl, rfl,
    C1_roundtrip specCoords [104, 105] headerBytes zeroSalt zeroNonce specCoords_good rfl rfl⟩

/-- The all-finite coordinate list on which C1 as stated fails. -/
def hugeCoords : List (PyFloat × PyFloat) := [(.finite (10 ^ 60), .finite 0)]

theorem hugeCoords_bytes_err : coords_to_bytes hugeCoords 6 = .error .structError := by
  have ex : scaledRound (.finite ((10 : ℚ) ^ 60)) 6 = 10 ^ 66 :=
    scaledRound_finite _ _ _ (by push_cast; ring)
  have ey : scaledRound (.finite (0 : ℚ)) 6 = 0 := scaledRound_finite _ _ _ (by norm_num)
  have hx : pyRound (pyMulNat (.finite ((10 : ℚ) ^ 60)) (10 ^ 6)) = .ok ((10 : ℤ) ^ 66) := by
    rw [pyRound_fin (PyFloat.finite ((10 : ℚ) ^ 60)) 6 rfl, ex]
  have hy : pyRound (pyMulNat (.finite (0 : ℚ)) (10 ^ 6)) = .ok 0 := by
    rw [pyRound_fin (PyFloat.finite (0 : ℚ)) 6 rfl, ey]
  have hpack : packInt64 ((10 : ℤ) ^ 66) = .error .structError := by
    rw [packInt64, if_pos (Or.inr (by norm_num))]
  simp only [hugeCoords, coords_to_bytes, hx, hy, hpack, exceptBind_ok, exceptBind_error]

/-- C1 as literally stated is false: every component of `[(1e60, 0.0)]` is
finite, yet encryption raises `struct.error` (the scaled rounding exceeds
the signed 64-bit packing range), so decrypt-of-encrypt never returns the
plaintext. -/
theorem C1_counterexample :
    (∀ pr ∈ hugeCoords, isFin pr.1 = true ∧ isFin pr.2 = true) ∧
    (encrypt_with_coords hugeCoords [104] [] zeroSalt zeroNonce >>= fun pkg =>
      decrypt_with_coords hugeCoords pkg []) = .error .structError := by
  constructor
  · intro pr hpr
    simp only [hugeCoords, List.mem_cons, List.not_mem_nil, or_false] at hpr
    subst hpr
    exact ⟨rfl, rfl⟩
  · simp [encrypt_with_coords, hugeCoords_bytes_err, exceptBind_error]

/-- C2: whenever `encrypt_with_coords` returns a package (salt and nonce
being the 16- and 12-byte `os.urandom` draws), the package is
salt ‖ nonce ‖ sealed with salt at `[0:16)`, nonce at `[16:28)`, the sealed
data (ciphertext plus 16-byte tag) at `[28:)`, and total length
`16 + 12 + len(P) + 16 = 44 + len(P)`. -/
theorem C2_package_layout (coords : List (PyFloat × PyFloat)) (P A salt nonce pkg : List Nat)
    (hsalt : salt.length = 16) (hnonce : nonce.length = 12)
    (henc : encrypt_with_coords coords P A salt nonce = .ok pkg) :
    pkg.length = 44 + P.length ∧ pkg.take 16 = salt ∧ (pkg.drop 16).take 12 = nonce ∧
      ∃ sealed, pkg = salt ++ nonce ++ sealed ∧ pkg.drop 28 = sealed
        ∧ sealed.length = P.length + 16 := by
  cases hcb : coords_to_bytes coords 6 with
  | error e =>
    rw [show encrypt_with_coords coords P A salt nonce = .error e from by
      simp only [encrypt_with_coords, hcb, exceptBind_error]] at henc
    cases henc
  | ok cb =>
    rw [encrypt_with_coords_eq coords cb P A salt nonce hcb (by omega) (by omega)] at henc
    injection henc with hpkg
    subst hpkg
    have hsl := aesgcmSeal_length (derive_keys (sha256 (cb ++ salt)) infoCoordsAes 32) nonce P A
      (derive_keys_length _ _)
    refine ⟨?_, ?_, ?_, _, rfl, ?_, hsl⟩
    · simp [List.length_append, hsalt, hnonce, hsl]
      omega
    · rw [List.append_assoc]
      exact List.take_left' hsalt
    · rw [List.append_assoc, List.drop_left' hsalt]
      exact List.take_left' hnonce
    · rw [List.append_assoc]
      exact drop28_append _ _ _ hsalt hnonce

/-- Witness for C2: the spec scenario (`"hello"`, AAD `"header"`,
precision-6 coordinate seed) yields a 49-byte package. -/
theorem C2_package_layout_witness :
    ∃ pkg, encrypt_with_coords specCoords helloBytes headerBytes zeroSalt zeroNonce = .ok pkg
      ∧ pkg.length = 49 ∧ pkg.take 16 = zeroSalt ∧ (pkg.drop 16).take 12 = zeroNonce := by
  have henc := encrypt_with_coords_eq specCoords specCB helloBytes headerBytes zeroSalt zeroNonce
    specCoords_bytes (by norm_num [zeroNonce]) (by norm_num [zeroNonce])
  obtain ⟨h1, h2, h3, _⟩ := C2_package_layout specCoords helloBytes headerBytes zeroSalt
    zeroNonce _ rfl rfl henc
  refine ⟨_, henc, ?_, h2, h3⟩
  rw [h1]
  rfl

/-- C6 (amended): for every pair list whose components are finite *and
whose scaled roundings fit the signed 64-bit packing range*, and every
precision `p`, the canonical encoding is the concatenation, in input order
and (x, y) component order, of the 8-byte signed big-endian encodings of
`round(x·10^p)` — hence exactly 16·n bytes — and is a pure function of the
list and `p` (hence deterministic). -/
theorem C6_encoding (coords : List (PyFloat × PyFloat)) (p : Nat)
    (hgood : ∀ pr ∈ coords, GoodPair pr p) :
    coords_to_bytes coords p = .ok (coords.flatMap fun pr => encPair pr p)
      ∧ (coords.flatMap fun pr => encPair pr p).length = 16 * coords.length :=
  ⟨coords_to_bytes_ok coords p hgood, flatMap_encPair_length coords p⟩

/-- Witness for C6 at the spec scenario seed. -/
theorem C6_encoding_witness :
    (∀ pr ∈ specCoords, GoodPair pr 6) ∧
    coords_to_bytes specCoords 6 = .ok (specCoords.flatMap fun pr => encPair pr 6) ∧
    (specCoords.flatMap fun pr => encPair pr 6).length = 16 * specCoords.length :=
  ⟨specCoords_good, (C6_encoding specCoords 6 specCoords_good).1,
    (C6_encoding specCoords 6 specCoords_good).2⟩

/-- C6 as literally stated (every finite list, every precision) is false:
at precision 30 the pair `(1.0, 0.0)` has finite components but the
encoding raises `struct.error` instead of producing 16 bytes. -/
theorem C6_counterexample :
    (∀ pr ∈ ([(PyFloat.finite 1, PyFloat.finite 0)] : List (PyFloat × PyFloat)),
      isFin pr.1 = true ∧ isFin pr.2 = true)
    ∧ coords_to_bytes [(PyFloat.finite 1, PyFloat.finite 0)] 30 = .error .structError := by
  constructor
  · intro pr hpr
    simp only [List.mem_cons, List.not_mem_nil, or_false] at hpr
    subst hpr
    exact ⟨rfl, rfl⟩
  · have ex : scaledRound (.finite (1 : ℚ)) 30 = 10 ^ 30 :=
      scaledRound_finite _ _ _ (by push_cast; ring)
    have ey : scaledRound (.finite (0 : ℚ)) 30 = 0 := scaledRound_finite _ _ _ (by norm_num)
    have hx := pyRound_fin (PyFloat.finite (1 : ℚ)) 30 rfl
    have hy := pyRound_fin (PyFloat.finite (0 : ℚ)) 30 rfl
    rw [ex] at hx
    rw [ey] at hy
    have hpack : packInt64 ((10 : ℤ) ^ 30) = .error .structError := by
      rw [packInt64, if_pos (Or.inr (by norm_num))]
    simp only [coords_to_bytes, hx, hy, hpack, exceptBind_ok, exceptBind_error]

/-- C9: the empty coordinate list is accepted: `coords_to_bytes([])` is the
empty byte string and encryption succeeds, producing a well-formed
`44 + len(P)`-byte package whose AES key is derived solely from the 16-byte
salt — which itself sits in cleartext at the head of the package. -/
theorem C9_empty_coords (P A salt nonce : List Nat) (hsalt : salt.length = 16)
    (hnonce : nonce.length = 12) :
    coords_to_bytes [] 6 = .ok [] ∧
    encrypt_with_coords [] P A salt nonce
      = .ok (salt ++ nonce ++ aesgcmSeal (derive_keys (sha256 salt) infoCoordsAes 32) nonce P A)
    ∧ (salt ++ nonce
        ++ aesgcmSeal (derive_keys (sha256 salt) infoCoordsAes 32) nonce P A).length
      = 44 + P.length
    ∧ (salt ++ nonce
        ++ aesgcmSeal (derive_keys (sha256 salt) infoCoordsAes 32) nonce P A).take 16
      = salt := by
  have henc := encrypt_with_coords_eq [] [] P A salt nonce rfl (by omega) (by omega)
  rw [List.nil_append] at henc
  have hsl := aesgcmSeal_length (derive_keys (sha256 salt) infoCoordsAes 32) nonce P A
    (derive_keys_length _ _)
  refine ⟨rfl, henc, ?_, ?_⟩
  · simp [List.length_append, hsalt, hnonce, hsl]
    omega
  · rw [List.append_assoc]
    exact List.take_left' hsalt

/-- Witness for C9 with plaintext `"hi"` and empty associated data. -/
theorem C9_empty_coords_witness :
    zeroSalt.length = 16 ∧ zeroNonce.length = 12 ∧
    coords_to_bytes [] 6 = .ok [] ∧
    encrypt_with_coords [] [104, 105] [] zeroSalt zeroNonce
      = .ok (zeroSalt ++ zeroNonce
        ++ aesgcmSeal (derive_keys (sha256 zeroSalt) infoCoordsAes 32) zeroNonce [104, 105] []) :=
  ⟨rfl, rfl, (C9_empty_coords [104, 105] [] zeroSalt zeroNonce rfl rfl).1,
    (C9_empty_coords [104, 105] [] zeroSalt zeroNonce rfl rfl).2.1⟩

/-- C3 (amended): `decrypt_with_coords` performs no structural length check
and defines no `MalformedPackage` error kind.  With any validly encoding
coordinate list: a packaged blob shorter than 24 bytes fails with
`ValueError` from the AESGCM nonce-length check (the `[16:28)` slice is
shorter than 8 bytes), while a blob of 24 to 43 bytes — in particular a 27-
or 28-byte one — reaches AEAD decryption and fails with `InvalidTag`
(the sealed part is shorter than the 16-byte tag), the same error kind as
an authentication failure. -/
theorem C3_short_blobs (coords : List (PyFloat × PyFloat)) (cb blob A : List Nat)
    (hcb : coords_to_bytes coords 6 = .ok cb) :
    (blob.length < 24 → decrypt_with_coords coords blob A = .error .valueError)
    ∧ (24 ≤ blob.length → blob.length < 44 →
        decrypt_with_coords coords blob A = .error .invalidTag) := by
  constructor
  · intro h24
    rw [decrypt_with_coords_eq coords cb blob A hcb, aesgcmDecrypt,
      if_pos (Or.inr (Or.inr (derive_keys_length _ _))),
      if_pos (Or.inl (by simp only [List.length_take, List.length_drop]; omega))]
  · intro h24 h44
    rw [decrypt_with_coords_eq coords cb blob A hcb, aesgcmDecrypt,
      if_pos (Or.inr (Or.inr (derive_keys_length _ _))),
      if_neg (by simp only [List.length_take, List.length_drop]; omega),
      if_pos (by simp only [List.length_drop]; omega)]

/-- Witness for C3 with the empty (validly encoding) coordinate list, a
20-byte blob and a 30-byte blob. -/
theorem C3_short_blobs_witness :
    decrypt_with_coords [] (List.replicate 20 0) [] = .error .valueError
    ∧ decrypt_with_coords [] (List.replicate 30 0) [] = .error .invalidTag :=
  ⟨(C3_short_blobs [] [] (List.replicate 20 0) [] rfl).1 (by decide),
   (C3_short_blobs [] [] (List.replicate 30 0) [] rfl).2 (by decide) (by decide)⟩

/-- C3 as stated is false: a 27-byte blob does not fail with a distinct
`MalformedPackage` kind — it fails with `InvalidTag`, the very kind raised
by authentication failure (and no `MalformedPackage` kind exists in the
code). -/
theorem C3_counterexample :
    decrypt_with_coords [] (List.replicate 27 0) [] = .error .invalidTag := by
  decide

/-- C4 (amended): a non-finite coordinate component makes `coords_to_bytes`
raise a builtin exception — `ValueError` for NaN, `OverflowError` for
±infinity, possibly `struct.error` if an earlier component fails packing
first — never a distinct `InvalidSeed` kind (none exists in the code);
`encrypt_with_coords` and `decrypt_with_coords` propagate that same
exception rather than succeeding or reporting an authentication error. -/
theorem C4_nonfinite (coords : List (PyFloat × PyFloat)) (P A salt nonce packaged : List Nat)
    (hbad : ∃ pr ∈ coords, isFin pr.1 = false ∨ isFin pr.2 = false) :
    ∃ e, (e = PyErr.valueError ∨ e = .overflowError ∨ e = .structError)
      ∧ coords_to_bytes coords 6 = .error e
      ∧ encrypt_with_coords coords P A salt nonce = .error e
      ∧ decrypt_with_coords coords packaged A = .error e := by
  obtain ⟨e, hk, herr⟩ := coords_to_bytes_err coords 6 hbad
  exact ⟨e, hk, herr, by simp only [encrypt_with_coords, herr, exceptBind_error],
    by simp only [decrypt_with_coords, herr, exceptBind_error]⟩

/-- Witness for C4 on the seed `[(nan, 0.0)]`. -/
theorem C4_nonfinite_witness :
    ∃ e, (e = PyErr.valueError ∨ e = .overflowError ∨ e = .structError)
      ∧ coords_to_bytes [(PyFloat.nan, PyFloat.finite 0)] 6 = .error e
      ∧ encrypt_with_coords [(PyFloat.nan, PyFloat.finite 0)] [104] [] zeroSalt zeroNonce
        = .error e
      ∧ decrypt_with_coords [(PyFloat.nan, PyFloat.finite 0)] (List.replicate 44 0) []
        = .error e :=
  C4_nonfinite [(PyFloat.nan, PyFloat.finite 0)] [104] [] zeroSalt zeroNonce
    (List.replicate 44 0) ⟨(PyFloat.nan, PyFloat.finite 0), by simp, Or.inl rfl⟩

/-- C4 as stated is false: on a NaN component the failure is the builtin
`ValueError` that `round()` raises — the same kind the AESGCM layer uses
for bad parameters — not a distinct `InvalidSeed` error kind. -/
theorem C4_counterexample :
    encrypt_with_coords [(PyFloat.nan, PyFloat.finite 0)] [104] [] zeroSalt zeroNonce
      = .error .valueError := by
  decide

/-! ## Seed-sensitivity machinery (C7) -/

/-- Two coordinate pairs that are componentwise finite with equal scaled
roundings (hence identical canonical encodings). -/
def SamePair (p : Nat) (pr pr' : PyFloat × PyFloat) : Prop :=
  isFin pr.1 = true ∧ isFin pr'.1 = true ∧ isFin pr.2 = true ∧ isFin pr'.2 = true
    ∧ scaledRound pr.1 p = scaledRound pr'.1 p ∧ scaledRound pr.2 p = scaledRound pr'.2 p

theorem coords_to_bytes_congr (c c' : List (PyFloat × PyFloat)) (p : Nat)
    (h : List.Forall₂ (SamePair p) c c') : coords_to_bytes c p = coords_to_bytes c' p := by
  induction h with
  | nil => rfl
  | @cons a a' l l' hpair hrest ih =>
    obtain ⟨x, y⟩ := a
    obtain ⟨x', y'⟩ := a'
    obtain ⟨f1, f1', f2, f2', e1, e2⟩ := hpair
    simp only [coords_to_bytes, pyRound_fin x p f1, pyRound_fin y p f2,
      pyRound_fin x' p f1', pyRound_fin y' p f2', e1, e2, ih, exceptBind_ok]

theorem decrypt_with_coords_congr (c c' : List (PyFloat × PyFloat)) (pkg A : List Nat)
    (h : coords_to_bytes c 6 = coords_to_bytes c' 6) :
    decrypt_with_coords c pkg A = decrypt_with_coords c' pkg A := by
  simp only [decrypt_with_coords, h]

theorem natToBytesBE_inj :
    ∀ k a b, a < 256 ^ k → b < 256 ^ k → natToBytesBE k a = natToBytesBE k b → a = b
  | 0, a, b, ha, hb, _ => by
    simp at ha hb
    omega
  | k + 1, a, b, ha, hb, h => by
    rw [natToBytesBE, natToBytesBE] at h
    obtain ⟨h1, h2⟩ := List.append_inj h (by rw [natToBytesBE_length, natToBytesBE_length])
    have hda : a / 256 < 256 ^ k := Nat.div_lt_of_lt_mul (by rw [← pow_succ']; exact ha)
    have hdb : b / 256 < 256 ^ k := Nat.div_lt_of_lt_mul (by rw [← pow_succ']; exact hb)
    have hdiv := natToBytesBE_inj k (a / 256) (b / 256) hda hdb h1
    have hmod : a % 256 = b % 256 := by simpa using h2
    omega

theorem encComp_inj (x x' : PyFloat) (p : Nat) (hr : InRange64 (scaledRound x p))
    (hr' : InRange64 (scaledRound x' p)) (h : encComp x p = encComp x' p) :
    scaledRound x p = scaledRound x' p := by
  obtain ⟨hr1, hr2⟩ := hr
  obtain ⟨hr1', hr2'⟩ := hr'
  have hpow : (256 : ℕ) ^ 8 = 18446744073709551616 := by norm_num
  have hb1 : ((scaledRound x p) % (2 ^ 64 : ℤ)).toNat < 256 ^ 8 := by
    have := Int.emod_nonneg (scaledRound x p) (by norm_num : (2 ^ 64 : ℤ) ≠ 0)
    have := Int.emod_lt_of_pos (scaledRound x p) (by norm_num : (0 : ℤ) < 2 ^ 64)
    rw [hpow]
    omega
  have hb2 : ((scaledRound x' p) % (2 ^ 64 : ℤ)).toNat < 256 ^ 8 := by
    have := Int.emod_nonneg (scaledRound x' p) (by norm_num : (2 ^ 64 : ℤ) ≠ 0)
    have := Int.emod_lt_of_pos (scaledRound x' p) (by norm_num : (0 : ℤ) < 2 ^ 64)
    rw [hpow]
    omega
  have heq := natToBytesBE_inj 8 _ _ hb1 hb2 h
  have n1 := Int.emod_nonneg (scaledRound x p) (by norm_num : (2 ^ 64 : ℤ) ≠ 0)
  have n2 := Int.emod_nonneg (scaledRound x' p) (by norm_num : (2 ^ 64 : ℤ) ≠ 0)
  omega

theorem coords_to_bytes_alter_ne (pre post : List (PyFloat × PyFloat)) (x x' y : PyFloat)
    (hgood : ∀ pr ∈ pre ++ (x, y) :: post, GoodPair pr 6)
    (hgood' : ∀ pr ∈ pre ++ (x', y) :: post, GoodPair pr 6)
    (hne : scaledRound x 6 ≠ scaledRound x' 6) :
    coords_to_bytes (pre ++ (x, y) :: post) 6 ≠ coords_to_bytes (pre ++ (x', y) :: post) 6 := by
  intro heq
  rw [coords_to_bytes_ok _ _ hgood, coords_to_bytes_ok _ _ hgood'] at heq
  injection heq with heq
  rw [List.flatMap_append, List.flatMap_append, List.flatMap_cons, List.flatMap_cons] at heq
  have heq2 := List.append_cancel_left heq
  rw [show encPair (x, y) 6 = encComp x 6 ++ encComp y 6 from rfl,
    show encPair (x', y) 6 = encComp x' 6 ++ encComp y 6 from rfl,
    List.append_assoc, List.append_assoc] at heq2
  obtain ⟨h1, _⟩ := List.append_inj heq2
    (by simp [encComp, natToBytesBE_length])
  refine hne (encComp_inj x x' 6 ?_ ?_ h1)
  · exact (hgood (x, y) (by simp)).2.2.1
  · exact (hgood' (x', y) (by simp)).2.2.1

/-- Round-half-to-even commutes with adding an integer away from the
half-way ties. -/
theorem roundHalfEven_add_int (r : ℚ) (d : ℤ) (hne : r - ⌊r⌋ ≠ 1 / 2) :
    roundHalfEven (r + d) = roundHalfEven r + d := by
  unfold roundHalfEven
  rw [Int.floor_add_int]
  have hfr : (r + d) - ((⌊r⌋ + d : ℤ) : ℚ) = r - ⌊r⌋ := by push_cast; ring
  rw [hfr]
  rcases lt_trichotomy (r - ⌊r⌋) (1 / 2) with h | h | h
  · rw [if_pos h, if_pos h]
  · exact absurd h hne
  · rw [if_neg (show ¬(r - ⌊r⌋ < 1 / 2) by linarith),
      if_neg (show ¬(r - (⌊r⌋ : ℚ) < 1 / 2) by linarith), if_pos h, if_pos h]
    ring

/-- Altering a finite coordinate by a nonzero integer multiple of
`10^(-p)` (for example one unit in the p-th decimal digit) changes the
scaled rounding, provided the scaled value is not at a rounding tie. -/
theorem scaledRound_alter_ne (q : ℚ) (d : ℤ) (p : Nat) (hd : d ≠ 0)
    (htie : q * ((10 ^ p : ℕ) : ℚ) - ⌊q * ((10 ^ p : ℕ) : ℚ)⌋ ≠ 1 / 2) :
    scaledRound (.finite (q + (d : ℚ) / ((10 ^ p : ℕ) : ℚ))) p ≠ scaledRound (.finite q) p := by
  have h10 : ((10 ^ p : ℕ) : ℚ) ≠ 0 := by positivity
  have harg : (q + (d : ℚ) / ((10 ^ p : ℕ) : ℚ)) * ((10 ^ p : ℕ) : ℚ)
      = q * ((10 ^ p : ℕ) : ℚ) + (d : ℚ) := by field_simp
  rw [show scaledRound (.finite (q + (d : ℚ) / ((10 ^ p : ℕ) : ℚ))) p
      = roundHalfEven ((q + (d : ℚ) / ((10 ^ p : ℕ) : ℚ)) * ((10 ^ p : ℕ) : ℚ)) from rfl,
    show scaledRound (.finite q) p = roundHalfEven (q * ((10 ^ p : ℕ) : ℚ)) from rfl,
    harg, roundHalfEven_add_int _ _ htie]
  omega

theorem roundHalfEven_eq_floor (q : ℚ) (f : ℤ) (hf : ⌊q⌋ = f) (hlt : q - f < 1 / 2) :
    roundHalfEven q = f := by
  unfold roundHalfEven
  rw [hf, if_pos hlt]

theorem roundHalfEven_eq_floor_succ (q : ℚ) (f : ℤ) (hf : ⌊q⌋ = f) (hgt : 1 / 2 < q - f) :
    roundHalfEven q = f + 1 := by
  unfold roundHalfEven
  rw [hf, if_neg (show ¬(q - (f : ℚ) < 1 / 2) by linarith), if_pos hgt]

theorem scaledRound_finite_floor (q : ℚ) (p : Nat) (f : ℤ)
    (hf : ⌊q * ((10 ^ p : ℕ) : ℚ)⌋ = f) (hlt : q * ((10 ^ p : ℕ) : ℚ) - f < 1 / 2) :
    scaledRound (.finite q) p = f := by
  rw [show scaledRound (.finite q) p = roundHalfEven (q * ((10 ^ p : ℕ) : ℚ)) from rfl]
  exact roundHalfEven_eq_floor _ _ hf hlt

theorem scaledRound_finite_ceil (q : ℚ) (p : Nat) (f : ℤ)
    (hf : ⌊q * ((10 ^ p : ℕ) : ℚ)⌋ = f) (hgt : 1 / 2 < q * ((10 ^ p : ℕ) : ℚ) - f) :
    scaledRound (.finite q) p = f + 1 := by
  rw [show scaledRound (.finite q) p = roundHalfEven (q * ((10 ^ p : ℕ) : ℚ)) from rfl]
  exact roundHalfEven_eq_floor_succ _ _ hf hgt

theorem coords_to_bytes_single (x y : PyFloat) (p : Nat) (nx ny : ℤ)
    (hgx : isFin x = true) (hgy : isFin y = true)
    (ex : scaledRound x p = nx) (ey : scaledRound y p = ny)
    (hrx : InRange64 nx) (hry : InRange64 ny) :
    coords_to_bytes [(x, y)] p
      = .ok (natToBytesBE 8 (nx % (2 ^ 64 : ℤ)).toNat
          ++ natToBytesBE 8 (ny % (2 ^ 64 : ℤ)).toNat) := by
  have h := coords_to_bytes_ok [(x, y)] p (by
    intro pr hpr
    simp only [List.mem_cons, List.not_mem_nil, or_false] at hpr
    subst hpr
    exact ⟨hgx, hgy, ex ▸ hrx, ey ▸ hry⟩)
  rw [h]
  simp [List.flatMap_cons, encPair, encComp, ex, ey]

/-- The spec pair `(12.971599, 77.594566)` and its 6th-decimal-digit
alteration `(12.971598, 77.594566)`. -/
def digitCoordsA : List (PyFloat × PyFloat) :=
  [(.finite (12971599 / 1000000), .finite (77594566 / 1000000))]

def digitCoordsB : List (PyFloat × PyFloat) :=
  [(.finite (12971598 / 1000000), .finite (77594566 / 1000000))]

def digitCB_A : List Nat := [0, 0, 0, 0, 0, 197, 238, 79, 0, 0, 0, 0, 4, 159, 255, 198]

def digitCB_B : List Nat := [0, 0, 0, 0, 0, 197, 238, 78, 0, 0, 0, 0, 4, 159, 255, 198]

theorem digitCoordsA_bytes : coords_to_bytes digitCoordsA 6 = .ok digitCB_A := by
  have h := coords_to_bytes_single (PyFloat.finite (12971599 / 1000000))
    (PyFloat.finite (77594566 / 1000000)) 6 12971599 77594566 rfl rfl
    (scaledRound_finite _ _ _ (by norm_num)) (scaledRound_finite _ _ _ (by norm_num))
    ⟨by norm_num, by norm_num⟩ ⟨by norm_num, by norm_num⟩
  rw [show digitCoordsA
      = [(PyFloat.finite (12971599 / 1000000), PyFloat.finite (77594566 / 1000000))] from rfl, h]
  decide

theorem digitCoordsB_bytes : coords_to_bytes digitCoordsB 6 = .ok digitCB_B := by
  have h := coords_to_bytes_single (PyFloat.finite (12971598 / 1000000))
    (PyFloat.finite (77594566 / 1000000)) 6 12971598 77594566 rfl rfl
    (scaledRound_finite _ _ _ (by norm_num)) (scaledRound_finite _ _ _ (by norm_num))
    ⟨by norm_num, by norm_num⟩ ⟨by norm_num, by norm_num⟩
  rw [show digitCoordsB
      = [(PyFloat.finite (12971598 / 1000000), PyFloat.finite (77594566 / 1000000))] from rfl, h]
  decide

/-- C7 (amended): (i) componentwise-finite coordinate lists with equal
scaled roundings — e.g. 7th-or-later-digit alterations that do not move a
scaled value across a rounding boundary — have identical canonical
encodings and identical decryption behaviour; (ii) altering one component
of a validly encoding list so that its scaled rounding changes yields a
different canonical encoding; (iii) a change of `d · 10^(-p)` with `d ≠ 0`
(e.g. one unit of the 6th decimal digit at precision 6) changes the scaled
rounding whenever the scaled value is not at an exact half-way tie; (iv)
concretely, decrypting the package sealed under `(12.971599, 77.594566)`
with the 6th-digit-altered seed `(12.971598, 77.594566)` fails with
`InvalidTag` (AuthenticationFailed). -/
theorem C7_seed_sensitivity :
    (∀ (c c' : List (PyFloat × PyFloat)) (pkg A : List Nat),
      List.Forall₂ (SamePair 6) c c' →
      coords_to_bytes c 6 = coords_to_bytes c' 6
        ∧ decrypt_with_coords c pkg A = decrypt_with_coords c' pkg A)
    ∧ (∀ (pre post : List (PyFloat × PyFloat)) (x x' y : PyFloat),
        (∀ pr ∈ pre ++ (x, y) :: post, GoodPair pr 6) →
        (∀ pr ∈ pre ++ (x', y) :: post, GoodPair pr 6) →
        scaledRound x 6 ≠ scaledRound x' 6 →
        coords_to_bytes (pre ++ (x, y) :: post) 6 ≠ coords_to_bytes (pre ++ (x', y) :: post) 6)
    ∧ (∀ (q : ℚ) (d : ℤ) (p : Nat), d ≠ 0 →
        q * ((10 ^ p : ℕ) : ℚ) - ⌊q * ((10 ^ p : ℕ) : ℚ)⌋ ≠ 1 / 2 →
        scaledRound (.finite (q + (d : ℚ) / ((10 ^ p : ℕ) : ℚ))) p ≠ scaledRound (.finite q) p)
    ∧ (encrypt_with_coords digitCoordsA [104, 105] [] zeroSalt zeroNonce >>= fun pkg =>
        decrypt_with_coords digitCoordsB pkg []) = .error .invalidTag := by
  refine ⟨?_, coords_to_bytes_alter_ne, scaledRound_alter_ne, ?_⟩
  · intro c c' pkg A hfa
    have h := coords_to_bytes_congr c c' 6 hfa
    exact ⟨h, decrypt_with_coords_congr c c' pkg A h⟩
  · rw [encrypt_with_coords_eq digitCoordsA digitCB_A [104, 105] [] zeroSalt zeroNonce
      digitCoordsA_bytes (by decide) (by decide), exceptBind_ok,
      decrypt_with_coords_eq digitCoordsB digitCB_B _ [] digitCoordsB_bytes,
      List.append_assoc,
      List.take_left' (show zeroSalt.length = 16 from rfl),
      List.drop_left' (show zeroSalt.length = 16 from rfl),
      List.take_left' (show zeroNonce.length = 12 from rfl),
      drop28_append _ _ _ (show zeroSalt.length = 16 from rfl)
        (show zeroNonce.length = 12 from rfl)]
    decide

/-- C7 as stated is false: `0.129715994·10^2`-style values aside, the two
single-pair seeds `12.9715994` and `12.9715996` differ only in the 7th
decimal digit, yet their canonical encodings differ (the scaled value
crosses the rounding boundary at 12971599.5). -/
theorem C7_counterexample :
    coords_to_bytes [(PyFloat.finite (129715994 / 10000000), PyFloat.finite 0)] 6
      ≠ coords_to_bytes [(PyFloat.finite (129715996 / 10000000), PyFloat.finite 0)] 6 := by
  have h1 := coords_to_bytes_single (PyFloat.finite (129715994 / 10000000)) (PyFloat.finite 0) 6
    12971599 0 rfl rfl
    (scaledRound_finite_floor _ _ _ (by norm_num) (by norm_num))
    (scaledRound_finite _ _ _ (by norm_num))
    ⟨by norm_num, by norm_num⟩ ⟨by norm_num, by norm_num⟩
  have h2 := coords_to_bytes_single (PyFloat.finite (129715996 / 10000000)) (PyFloat.finite 0) 6
    12971600 0 rfl rfl
    ((scaledRound_finite_ceil _ _ 12971599 (by norm_num) (by norm_num)).trans (by norm_num))
    (scaledRound_finite _ _ _ (by norm_num))
    ⟨by norm_num, by norm_num⟩ ⟨by norm_num, by norm_num⟩
  rw [h1, h2]
  decide

/-- Witness for C7: a 7th-digit alteration (12.9715991 → 12.9715992) with
unchanged rounding leaves decryption behaviour unchanged; the 6th-digit
alteration 12.971599 → 12.971598 changes the encoding; and subtracting
1·10^(-6) from 12.971599 changes the scaled rounding. -/
theorem C7_seed_sensitivity_witness :
    decrypt_with_coords [(PyFloat.finite (129715991 / 10000000), PyFloat.finite 0)]
        (List.replicate 49 0) []
      = decrypt_with_coords [(PyFloat.finite (129715992 / 10000000), PyFloat.finite 0)]
        (List.replicate 49 0) []
    ∧ coords_to_bytes [(PyFloat.finite (12971599 / 1000000), PyFloat.finite 0)] 6
      ≠ coords_to_bytes [(PyFloat.finite (12971598 / 1000000), PyFloat.finite 0)] 6
    ∧ scaledRound (.finite ((12971599 / 1000000 : ℚ) + ((-1 : ℤ) : ℚ) / ((10 ^ 6 : ℕ) : ℚ))) 6
      ≠ scaledRound (.finite (12971599 / 1000000 : ℚ)) 6 := by
  have s1 : scaledRound (.finite (129715991 / 10000000 : ℚ)) 6 = 12971599 :=
    scaledRound_finite_floor _ _ _ (by norm_num) (by norm_num)
  have s2 : scaledRound (.finite (129715992 / 10000000 : ℚ)) 6 = 12971599 :=
    scaledRound_finite_floor _ _ _ (by norm_num) (by norm_num)
  have sA : scaledRound (.finite (12971599 / 1000000 : ℚ)) 6 = 12971599 :=
    scaledRound_finite _ _ _ (by norm_num)
  have sB : scaledRound (.finite (12971598 / 1000000 : ℚ)) 6 = 12971598 :=
    scaledRound_finite _ _ _ (by norm_num)
  refine ⟨(C7_seed_sensitivity.1 _ _ (List.replicate 49 0) [] ?_).2,
    C7_seed_sensitivity.2.1 [] [] _ _ _ ?_ ?_ ?_,
    C7_seed_sensitivity.2.2.1 (12971599 / 1000000 : ℚ) (-1) 6 (by norm_num) (by norm_num)⟩
  · exact List.Forall₂.cons ⟨rfl, rfl, rfl, rfl, s1.trans s2.symm, rfl⟩ List.Forall₂.nil
  · intro pr hpr
    simp only [List.nil_append, List.mem_cons, List.not_mem_nil, or_false] at hpr
    subst hpr
    exact goodPair_mk _ _ 6 12971599 0 (by norm_num) (by norm_num)
      ⟨by norm_num, by norm_num⟩ ⟨by norm_num, by norm_num⟩
  · intro pr hpr
    simp only [List.nil_append, List.mem_cons, List.not_mem_nil, or_false] at hpr
    subst hpr
    exact goodPair_mk _ _ 6 12971598 0 (by norm_num) (by norm_num)
      ⟨by norm_num, by norm_num⟩ ⟨by norm_num, by norm_num⟩
  · rw [sA, sB]
    decide

/-! ## AAD binding (C5) -/

def pipelineKey (cb salt : List Nat) : List Nat :=
  derive_keys (sha256 (cb ++ salt)) infoCoordsAes 32

/-- The AEAD ciphertext part of a package sealed by the coordinate
pipeline. -/
def pipelineCt (cb salt nonce P : List Nat) : List Nat :=
  ctrCrypt (pipelineKey cb salt)
    (inc32 (gcmJ0 (bytesToNatBE
      (aesEncryptBlock (pipelineKey cb salt) (List.replicate 16 0))) nonce)) P

/-- C5 (amended): opening a package with associated data `A2` different
from the sealing `A1` fails with `InvalidTag` *whenever the two
authentication tags differ* — which is all but a negligible, though
mathematically nonempty, set of colliding AADs (see the counterexample). -/
theorem C5_aad_binding (coords : List (PyFloat × PyFloat)) (cb P A1 A2 salt nonce : List Nat)
    (hcb : coords_to_bytes coords 6 = .ok cb)
    (hsalt : salt.length = 16) (hnonce : nonce.length = 12)
    (htag : gcmTag (pipelineKey cb salt) nonce (pipelineCt cb salt nonce P) A2
      ≠ gcmTag (pipelineKey cb salt) nonce (pipelineCt cb salt nonce P) A1) :
    (encrypt_with_coords coords P A1 salt nonce >>= fun pkg =>
      decrypt_with_coords coords pkg A2) = .error .invalidTag := by
  simp only [pipelineKey, pipelineCt] at htag
  rw [encrypt_with_coords_eq coords cb P A1 salt nonce hcb (by omega) (by omega), exceptBind_ok,
    decrypt_with_coords_eq coords cb _ A2 hcb, List.append_assoc,
    List.take_left' hsalt, List.drop_left' hsalt, List.take_left' hnonce,
    drop28_append _ _ _ hsalt hnonce, aesgcmSeal_eq,
    aesgcmDecrypt_append _ _ _ _ _ (Or.inr (Or.inr (derive_keys_length _ _))) (by omega)
      (by omega) (gcmTag_length _ _ _ _ (derive_keys_length _ _)),
    if_neg htag]

/-- Witness for C5: the spec scenario — the `"hello"`/`"header"` package
opened with AAD `"other"` fails with `InvalidTag`. -/
theorem C5_aad_binding_witness :
    otherBytes ≠ headerBytes ∧
    (encrypt_with_coords specCoords helloBytes headerBytes zeroSalt zeroNonce >>= fun pkg =>
      decrypt_with_coords specCoords pkg otherBytes) = .error .invalidTag :=
  ⟨by decide, C5_aad_binding specCoords specCB helloBytes headerBytes otherBytes zeroSalt
    zeroNonce specCoords_bytes rfl rfl (by decide)⟩

def aadZeros : List Nat := List.replicate 32 0

/-- An AAD colliding with `aadZeros` under the key derived from the empty
seed and zero salt: XOR the pattern `(d, d·H)` into the two zero 16-byte
AAD blocks and GHASH is unchanged. -/
def aadCollide : List Nat :=
  (128 :: List.replicate 15 0)
    ++ [131, 230, 114, 56, 95, 86, 82, 114, 201, 208, 75, 88, 117, 205, 105, 73]

/-- C5 as universally stated is false: `aadCollide ≠ aadZeros`, yet the
package sealed with AAD `aadZeros` opens successfully under `aadCollide`
with the correct coordinates, salt and nonce — a genuine AES-GCM GHASH
collision (the two AAD blocks differ by `(d, d·H)`). -/
theorem C5_counterexample :
    aadCollide ≠ aadZeros ∧
    (encrypt_with_coords [] [104, 105] aadZeros zeroSalt zeroNonce >>= fun pkg =>
      decrypt_with_coords [] pkg aadCollide) = .ok [104, 105] := by
  constructor
  · decide
  · decide

/-! ## Measurement-pool structure (C8) -/

theorem insertByAreaDesc_perm (f : Feature) :
    ∀ l : List Feature, (insertByAreaDesc f l).Perm (f :: l)
  | [] => List.Perm.refl _
  | g :: gs => by
    rw [insertByAreaDesc]
    split
    · exact List.Perm.refl _
    · exact ((insertByAreaDesc_perm f gs).cons g).trans (List.Perm.swap f g gs)

theorem pySortByAreaDesc_perm : ∀ l : List Feature, (pySortByAreaDesc l).Perm l
  | [] => List.Perm.refl _
  | f :: fs => by
    rw [pySortByAreaDesc]
    exact (insertByAreaDesc_perm f (pySortByAreaDesc fs)).trans
      ((pySortByAreaDesc_perm fs).cons f)

theorem mem_insertByAreaDesc (f x : Feature) (l : List Feature)
    (h : x ∈ insertByAreaDesc f l) : x = f ∨ x ∈ l :=
  List.mem_cons.mp ((insertByAreaDesc_perm f l).mem_iff.mp h)

theorem insertByAreaDesc_pairwise (f : Feature) :
    ∀ l : List Feature, l.Pairwise (fun u v => v.2.2 ≤ u.2.2) →
      (insertByAreaDesc f l).Pairwise (fun u v => v.2.2 ≤ u.2.2)
  | [], _ => by simp [insertByAreaDesc]
  | g :: gs, h => by
    obtain ⟨hg, hgs⟩ := List.pairwise_cons.mp h
    rw [insertByAreaDesc]
    split
    · rename_i hle
      refine List.pairwise_cons.mpr ⟨?_, h⟩
      intro v hv
      rcases List.mem_cons.mp hv with rfl | hv'
      · exact hle
      · exact le_trans (hg v hv') hle
    · rename_i hgt
      refine List.pairwise_cons.mpr ⟨?_, insertByAreaDesc_pairwise f gs hgs⟩
      intro v hv
      rcases mem_insertByAreaDesc f v gs hv with rfl | hv'
      · omega
      · exact hg v hv'

theorem pySortByAreaDesc_sorted :
    ∀ l : List Feature, (pySortByAreaDesc l).Pairwise (fun u v => v.2.2 ≤ u.2.2)
  | [] => List.Pairwise.nil
  | f :: fs => by
    rw [pySortByAreaDesc]
    exact insertByAreaDesc_pairwise f _ (pySortByAreaDesc_sorted fs)

theorem insertByAreaDesc_filter_area (f : Feature) (a : ℤ) :
    ∀ l : List Feature,
      (insertByAreaDesc f l).filter (fun g => decide (g.2.2 = a))
        = if f.2.2 = a then f :: l.filter (fun g => decide (g.2.2 = a))
          else l.filter (fun g => decide (g.2.2 = a))
  | [] => by
    by_cases hf : f.2.2 = a <;> simp [insertByAreaDesc, List.filter, hf]
  | g :: gs => by
    rw [insertByAreaDesc]
    split
    · by_cases hf : f.2.2 = a <;> by_cases hg : g.2.2 = a <;>
        simp [List.filter_cons, hf, hg]
    · rename_i hgt
      by_cases hf : f.2.2 = a
      · have hg : ¬(g.2.2 = a) := by omega
        simp [List.filter_cons, hg, insertByAreaDesc_filter_area f a gs, hf]
      · by_cases hg : g.2.2 = a <;>
          simp [List.filter_cons, hg, insertByAreaDesc_filter_area f a gs, hf]

/-- Stability of the Python sort: features of any fixed area keep their
input order. -/
theorem pySortByAreaDesc_filter_area (a : ℤ) :
    ∀ l : List Feature,
      (pySortByAreaDesc l).filter (fun g => decide (g.2.2 = a))
        = l.filter (fun g => decide (g.2.2 = a))
  | [] => rfl
  | f :: fs => by
    rw [pySortByAreaDesc, insertByAreaDesc_filter_area f a (pySortByAreaDesc fs),
      pySortByAreaDesc_filter_area a fs]
    by_cases hf : f.2.2 = a <;> simp [List.filter_cons, hf]

theorem set_append_ge {α : Type} : ∀ (l1 l2 : List α) (n : Nat) (a : α),
    (l1 ++ l2).set (l1.length + n) a = l1 ++ l2.set n a
  | [], _, _, _ => by simp
  | b :: l1, l2, n, a => by
    rw [show (b :: l1).length + n = (l1.length + n) + 1 from by simp [List.length_cons]; omega]
    simp [List.set, set_append_ge l1 l2 n a]

theorem fillVec_eq : ∀ (fs : List Feature) (i k : Nat) (pre : List ℤ),
    pre.length = 3 * i → fs.length ≤ k →
    fillVec (pre ++ List.replicate (3 * k) 0) i fs
      = pre ++ (fs.flatMap fun f => [f.1, f.2.1, f.2.2])
          ++ List.replicate (3 * (k - fs.length)) 0
  | [], i, k, pre, _, _ => by simp [fillVec]
  | f :: fs, i, k, pre, hpre, hk => by
    obtain ⟨k', rfl⟩ : ∃ k', k = k' + 1 := ⟨k - 1, by simp at hk; omega⟩
    rw [fillVec]
    have hrep : List.replicate (3 * (k' + 1)) (0 : ℤ)
        = 0 :: 0 :: 0 :: List.replicate (3 * k') 0 := by
      rw [show 3 * (k' + 1) = 3 * k' + 1 + 1 + 1 from by omega]
      simp [List.replicate_succ]
    have h0 : (pre ++ List.replicate (3 * (k' + 1)) (0 : ℤ)).set (3 * i) f.1
        = pre ++ f.1 :: 0 :: 0 :: List.replicate (3 * k') 0 := by
      rw [hrep, show 3 * i = pre.length + 0 from by omega, set_append_ge]
      rfl
    have h1 : (pre ++ f.1 :: 0 :: 0 :: List.replicate (3 * k') (0 : ℤ)).set (3 * i + 1) f.2.1
        = pre ++ f.1 :: f.2.1 :: 0 :: List.replicate (3 * k') 0 := by
      rw [show 3 * i + 1 = pre.length + 1 from by omega, set_append_ge]
      rfl
    have h2 : (pre ++ f.1 :: f.2.1 :: 0 :: List.replicate (3 * k') (0 : ℤ)).set (3 * i + 2)
          f.2.2
        = pre ++ f.1 :: f.2.1 :: f.2.2 :: List.replicate (3 * k') 0 := by
      rw [show 3 * i + 2 = pre.length + 2 from by omega, set_append_ge]
      rfl
    rw [h0, h1, h2,
      show pre ++ f.1 :: f.2.1 :: f.2.2 :: List.replicate (3 * k') (0 : ℤ)
        = (pre ++ [f.1, f.2.1, f.2.2]) ++ List.replicate (3 * k') 0 from by simp,
      fillVec_eq fs (i + 1) k' (pre ++ [f.1, f.2.1, f.2.2])
        (by simp [List.length_append, hpre]; omega) (by simp at hk; omega)]
    simp only [List.flatMap_cons, List.length_cons, List.append_assoc, List.cons_append,
      List.nil_append]
    rw [show k' + 1 - (fs.length + 1) = k' - fs.length from by omega]

theorem fillVec_length : ∀ (fs : List Feature) (vec : List ℤ) (i : Nat),
    (fillVec vec i fs).length = vec.length
  | [], _, _ => rfl
  | f :: fs, vec, i => by
    rw [fillVec, fillVec_length fs]
    simp [List.length_set]

theorem flatMap_int32_length : ∀ l : List ℤ, (l.flatMap int32ToBytesLE).length = 4 * l.length
  | [] => rfl
  | v :: rest => by
    simp [List.flatMap_cons, int32ToBytesLE, natToBytesLE_length, flatMap_int32_length rest]
    omega

theorem flatMap_feature3_length :
    ∀ l : List Feature, (l.flatMap fun f => [f.1, f.2.1, f.2.2]).length = 3 * l.length
  | [] => rfl
  | f :: rest => by
    simp [List.flatMap_cons, flatMap_feature3_length rest]
    omega

/-- The 384 int32 slots of the capture: the stably area-descending top-128
features flattened, zero-filled to constant length. -/
def featureSlots (features : List Feature) : List ℤ :=
  (((pySortByAreaDesc features).take 128).flatMap fun f => [f.1, f.2.1, f.2.2])
    ++ List.replicate (3 * (128 - ((pySortByAreaDesc features).take 128).length)) 0

theorem featureSlots_length (features : List Feature) : (featureSlots features).length = 384 := by
  have ht : ((pySortByAreaDesc features).take 128).length ≤ 128 := by
    rw [List.length_take]
    omega
  rw [featureSlots, List.length_append, flatMap_feature3_length, List.length_replicate]
  omega

theorem screenshot_pool_eq (features : List Feature) (sample osr : List Nat) :
    screenshot_pool features sample osr
      = (featureSlots features).flatMap int32ToBytesLE ++ sample ++ osr := by
  rw [screenshot_pool, featureSlots,
    show List.replicate 384 (0 : ℤ) = [] ++ List.replicate (3 * 128) 0 from rfl,
    fillVec_eq ((pySortByAreaDesc features).take 128) 0 128 [] rfl
      (by rw [List.length_take]; omega),
    List.nil_append]

/-- C8: the entropy pool hashed into the key is, for every capture, the
1536-byte serialization of 128 three-int32 feature slots — the detected
features sorted descending by area with ties in input order, truncated to
128 and zero-filled — followed by the 64 sampled pixel-intensity bytes and
the 32 OS-random bytes, in that order: 1632 bytes regardless of how many
features were detected. -/
theorem C8_pool_structure (features : List Feature) (sample osr : List Nat)
    (hs : sample.length = 64) (ho : osr.length = 32) :
    screenshot_pool features sample osr
        = (featureSlots features).flatMap int32ToBytesLE ++ sample ++ osr
      ∧ ((featureSlots features).flatMap int32ToBytesLE).length = 1536
      ∧ (screenshot_pool features sample osr).length = 1632
      ∧ (pySortByAreaDesc features).Pairwise (fun u v => v.2.2 ≤ u.2.2)
      ∧ (pySortByAreaDesc features).Perm features
      ∧ (∀ a : ℤ, (pySortByAreaDesc features).filter (fun g => decide (g.2.2 = a))
          = features.filter (fun g => decide (g.2.2 = a)))
      ∧ screenshot_derived_key features sample osr
          = sha256 (screenshot_pool features sample osr) := by
  have hb : ((featureSlots features).flatMap int32ToBytesLE).length = 1536 := by
    rw [flatMap_int32_length, featureSlots_length]
  refine ⟨screenshot_pool_eq features sample osr, hb, ?_, pySortByAreaDesc_sorted features,
    pySortByAreaDesc_perm features, fun a => pySortByAreaDesc_filter_area a features, rfl⟩
  rw [screenshot_pool_eq features sample osr]
  simp [List.length_append, hb, hs, ho]

/-- Witness for C8 on a three-feature capture (with an area tie). -/
theorem C8_pool_structure_witness :
    (List.replicate 64 7 : List Nat).length = 64
    ∧ (List.replicate 32 9 : List Nat).length = 32
    ∧ (screenshot_pool [(1, 2, 5), (3, 4, 9), (0, 0, 5)] (List.replicate 64 7)
        (List.replicate 32 9)).length = 1632 :=
  ⟨rfl, rfl,
    (C8_pool_structure [(1, 2, 5), (3, 4, 9), (0, 0, 5)] (List.replicate 64 7)
      (List.replicate 32 9) rfl rfl).2.2.1⟩

/-! ## decrypt_ciphertext behaviour (C10) -/

theorem b64char_ne_pad (v : Nat) : b64char v ≠ 61 := by
  unfold b64char
  split_ifs <;> omega

theorem b64val_char : ∀ v < 64, b64val (b64char v) = .ok v := by decide

theorem b64_roundtrip : ∀ raw : List Nat, (∀ b ∈ raw, b < 256) →
    b64decode (b64encode raw) = .ok raw
  | [], _ => rfl
  | [a], h => by
    have ha : a < 256 := h a (by simp)
    rw [b64encode, b64decode,
      show a * 65536 / 262144 = a / 4 from by omega,
      show a * 65536 / 4096 % 64 = a % 4 * 16 from by omega,
      b64val_char (a / 4) (by omega), b64val_char (a % 4 * 16) (by omega)]
    simp [exceptBind_ok, pure, Except.pure]
    all_goals omega
  | [a, b], h => by
    have ha : a < 256 := h a (by simp)
    have hb : b < 256 := h b (by simp)
    rw [b64encode, b64decode,
      show (a * 65536 + b * 256) / 262144 = a / 4 from by omega,
      show (a * 65536 + b * 256) / 4096 % 64 = a % 4 * 16 + b / 16 from by omega,
      show (a * 65536 + b * 256) / 64 % 64 = b % 16 * 4 from by omega,
      b64val_char (a / 4) (by omega), b64val_char (a % 4 * 16 + b / 16) (by omega)]
    simp only [exceptBind_ok]
    rw [if_neg (b64char_ne_pad _), b64val_char (b % 16 * 4) (by omega)]
    simp [exceptBind_ok, pure, Except.pure]
    all_goals omega
  | a :: b :: c :: rest, h => by
    have ha : a < 256 := h a (by simp)
    have hb : b < 256 := h b (by simp)
    have hc : c < 256 := h c (by simp)
    have ih := b64_roundtrip rest fun x hx => h x (by simp [hx])
    rw [show b64encode (a :: b :: c :: rest)
        = b64char ((a * 65536 + b * 256 + c) / 262144)
          :: b64char ((a * 65536 + b * 256 + c) / 4096 % 64)
          :: b64char ((a * 65536 + b * 256 + c) / 64 % 64)
          :: b64char ((a * 65536 + b * 256 + c) % 64) :: b64encode rest from rfl,
      b64decode,
      show (a * 65536 + b * 256 + c) / 262144 = a / 4 from by omega,
      show (a * 65536 + b * 256 + c) / 4096 % 64 = a % 4 * 16 + b / 16 from by omega,
      show (a * 65536 + b * 256 + c) / 64 % 64 = b % 16 * 4 + c / 64 from by omega,
      show (a * 65536 + b * 256 + c) % 64 = c % 64 from by omega,
      b64val_char (a / 4) (by omega), b64val_char (a % 4 * 16 + b / 16) (by omega)]
    simp only [exceptBind_ok]
    rw [if_neg (b64char_ne_pad _), b64val_char (b % 16 * 4 + c / 64) (by omega)]
    simp only [exceptBind_ok]
    rw [if_neg (b64char_ne_pad _), b64val_char (c % 64) (by omega)]
    simp only [exceptBind_ok, ih]
    simp [exceptBind_ok, pure, Except.pure]
    all_goals omega

/-- C10: on every state the program can reach (the stored ciphertext, when
present, is a base64 encoding made by `encrypt_phrase`, and the stored key
is a 32-byte SHA-256 digest), `decrypt_ciphertext` never raises: it
returns `None` when the ciphertext or the key is missing, and `None`
whenever AEAD decryption fails inside the `try` block — so a caller cannot
distinguish a missing-key failure from an authentication failure. -/
theorem C10_decrypt_never_raises :
    (∀ k, decrypt_ciphertext none k = .ok none)
    ∧ (∀ c, decrypt_ciphertext (some c) none = .ok none)
    ∧ (∀ (raw key : List Nat), (∀ b ∈ raw, b < 256) → key.length = 32 →
        ∃ r, decrypt_ciphertext (some (b64encode raw)) (some key) = .ok r)
    ∧ (∀ (raw key : List Nat) (e : PyErr), (∀ b ∈ raw, b < 256) → key.length = 32 →
        aesgcmDecrypt key (raw.take 12) (raw.drop 12) [] = .error e →
        decrypt_ciphertext (some (b64encode raw)) (some key) = .ok none) := by
  refine ⟨fun k => rfl, fun c => rfl, ?_, ?_⟩
  · intro raw key hraw hk
    simp only [decrypt_ciphertext, b64_roundtrip raw hraw]
    rw [if_pos (Or.inr (Or.inr hk))]
    cases h2 : aesgcmDecrypt key (raw.take 12) (raw.drop 12) [] with
    | error e => exact ⟨none, rfl⟩
    | ok pt => exact ⟨pyUtf8Decode pt, rfl⟩
  · intro raw key e hraw hk h2
    simp only [decrypt_ciphertext, b64_roundtrip raw hraw]
    rw [if_pos (Or.inr (Or.inr hk)), h2]

/-- Witness for C10: a stored 12-byte raw blob (nonce only, empty
ciphertext) under a 32-byte key fails AEAD decryption and is swallowed
into `None`, indistinguishable from the missing-ciphertext and missing-key
returns. -/
theorem C10_decrypt_never_raises_witness :
    decrypt_ciphertext none (some (List.replicate 32 0)) = .ok none
    ∧ decrypt_ciphertext (some (b64encode (List.replicate 12 0))) none = .ok none
    ∧ decrypt_ciphertext (some (b64encode (List.replicate 12 0))) (some (List.replicate 32 0))
      = .ok none :=
  ⟨C10_decrypt_never_raises.1 (some (List.replicate 32 0)),
   C10_decrypt_never_raises.2.1 (b64encode (List.replicate 12 0)),
   C10_decrypt_never_raises.2.2.2 (List.replicate 12 0) (List.replicate 32 0) .invalidTag
     (by decide) (by decide) (by decide)⟩
